import Mathlib

/-!
Verification of the in-memory service registry
(`src/service_registry/log/index.js`).

The JavaScript object graph is modelled as an arena: every `Service` node
ever allocated lives at a fixed index of a `store : List Service`, and the
`prev` / `next` object references of the source become `Option Nat` indices
into that arena.  A `ServiceCluster` keeps `head` and `cursor` indices, and
the `ServiceRegistry` keeps the arena, the cluster array and the rolling
prune timestamp.  Loops of the source (`while (cur) { ... cur = cur.next }`)
become fuel-bounded recursions; a result of `none` marks divergence or a
dangling reference, which the JavaScript original can only exhibit on object
graphs the public API never builds.  Thrown registry errors (`_error`)
become an `Err` value carrying the message and status code; on every thrown
error of `registerService` / `keepService` / `removeService` / `getService`
the source performs no mutation before throwing, so these operations return
the unchanged registry together with the error.
-/

namespace ServiceRegistry

/-- One `Service` node of the source: its display hash, its keep-alive
timestamp and the doubly-linked-list references, as arena indices. -/
structure Service where
  hash : String
  timestamp : Nat
  prev : Option Nat
  next : Option Nat
deriving DecidableEq

/-- One `ServiceCluster` of the source: hash, name, exact version string and
the `head` / `cursor` references into the arena. -/
structure Cluster where
  hash : String
  name : String
  version : String
  head : Option Nat
  cursor : Option Nat
deriving DecidableEq

/-- The `ServiceRegistry` state: the arena of all allocated nodes, the
cluster array and the rolling health-check timestamp. -/
structure Registry where
  store : List Service
  clusters : List Cluster
  timestamp : Nat
deriving DecidableEq

/-- A thrown registry error: the `Error` message together with the
`statusCode` set by `_error(message, code)`. -/
structure Err where
  message : String
  statusCode : Nat
deriving DecidableEq

/-- `_formatServiceHash`. -/
def serviceHash (name version ip : String) (port : Nat) : String :=
  ip ++ ":" ++ toString port ++ "/" ++ name ++ "/v" ++ version

/-- `_formatClusterHash`. -/
def clusterHash (name version : String) : String :=
  name ++ "/v" ++ version

/-- The `Service` class constructor: hash from the identifying tuple,
timestamp from `_getTimestamp()` (the `now` argument), null links. -/
def Service.init (name version ip : String) (port now : Nat) : Service :=
  { hash := serviceHash name version ip port, timestamp := now,
    prev := none, next := none }

/-- The `ServiceCluster` class constructor: empty list, no cursor. -/
def Cluster.init (service version : String) : Cluster :=
  { hash := clusterHash service version, name := service, version := version,
    head := none, cursor := none }

/-- Remove the first occurrence of `pat` from a character list (the
behaviour of JavaScript `String.prototype.replace(pat, "")` with a string
pattern: only the first occurrence is replaced). -/
def replaceFirst (pat : List Char) : List Char → List Char
  | [] => []
  | c :: cs =>
    if pat.isPrefixOf (c :: cs) then (c :: cs).drop pat.length
    else c :: replaceFirst pat cs

/-- `_formatIPV`: when the configured address family is IPv4 the first
occurrence of the IPv6-mapped prefix is stripped.  The `ipv4` flag models
`config.ipv === "IPv4"`. -/
def formatIPV (ipv4 : Bool) (ip : String) : String :=
  if ipv4 then ⟨replaceFirst "::ffff:".data ip.data⟩ else ip

/-!  ### The semver dependency

`getService` delegates version matching to `semver.satisfies(version,
range)` from the external node-semver package.  The fragment of its
documented behaviour exercised by this repository is modelled here: plain
`X.Y.Z` versions, ranges that are a full version (only the identical
version matches), a major (`1` / `v1`) or major.minor (`1.2` / `v1.2`)
X-range, and caret ranges.  `semver.satisfies` throws on an invalid
version (modelled as `none`) and returns `false` on an unparsable range. -/

/-- Fold a run of decimal digits into a number; any other character makes
the parse fail (the relevant behaviour of `String.toNat?`). -/
def parseNatAux : List Char → Nat → Option Nat
  | [], acc => some acc
  | c :: cs, acc =>
    if c.isDigit then parseNatAux cs (acc * 10 + (c.toNat - '0'.toNat))
    else none

/-- Parse a non-empty all-digit character run. -/
def parseNatChars : List Char → Option Nat
  | [] => none
  | cs => parseNatAux cs 0

/-- Split a character list at every dot, as `String.splitOn "."` does. -/
def splitOnDot : List Char → List (List Char)
  | [] => [[]]
  | c :: cs =>
    if c = '.' then [] :: splitOnDot cs
    else
      match splitOnDot cs with
      | [] => [[c]]
      | h :: t => (c :: h) :: t

/-- Parse a plain `X.Y.Z` semantic version into its numeric triple. -/
def parseSemVer (s : String) : Option (Nat × Nat × Nat) :=
  match splitOnDot s.data with
  | [a, b, c] =>
    match parseNatChars a, parseNatChars b, parseNatChars c with
    | some x, some y, some z => some (x, y, z)
    | _, _, _ => none
  | _ => none

/-- A parsed version range of the node-semver fragment used here. -/
inductive VRange where
  | exact : Nat → Nat → Nat → VRange
  | major : Nat → VRange
  | majorMinor : Nat → Nat → VRange
  | caret : Nat → Nat → Nat → VRange
deriving DecidableEq

/-- Drop a single leading `v`, as node-semver's loose coercion does. -/
def stripVChars : List Char → List Char
  | 'v' :: cs => cs
  | cs => cs

/-- Parse the numeric components after the optional `v`. -/
def parseComponents (cs : List Char) : Option VRange :=
  match splitOnDot (stripVChars cs) with
  | [a] => (parseNatChars a).map .major
  | [a, b] =>
    match parseNatChars a, parseNatChars b with
    | some x, some y => some (.majorMinor x y)
    | _, _ => none
  | [a, b, c] =>
    match parseNatChars a, parseNatChars b, parseNatChars c with
    | some x, some y, some z => some (.exact x y z)
    | _, _, _ => none
  | _ => none

/-- Parse a range string of the supported fragment. -/
def parseRange (s : String) : Option VRange :=
  match s.data with
  | '^' :: rest =>
    match parseComponents rest with
    | some (.exact a b c) => some (.caret a b c)
    | _ => none
  | cs =>
    parseComponents cs

/-- Semantic-version precedence, major then minor then patch. -/
def semverLt (a b : Nat × Nat × Nat) : Bool :=
  a.1 < b.1 || (a.1 == b.1 && (a.2.1 < b.2.1 || (a.2.1 == b.2.1 && a.2.2 < b.2.2)))

/-- Does the concrete version `v` match the parsed range?  `exact` matches
only the identical triple; `major` / `majorMinor` match on the stated
prefix components; `caret` follows node-semver's caret rule. -/
def rangeMatches (v : Nat × Nat × Nat) : VRange → Bool
  | .exact a b c => v == (a, b, c)
  | .major a => v.1 == a
  | .majorMinor a b => v.1 == a && v.2.1 == b
  | .caret a b c =>
    if 0 < a then v.1 == a && !semverLt v (a, b, c)
    else if 0 < b then v.1 == 0 && v.2.1 == b && c ≤ v.2.2
    else v == (0, 0, c)

/-- `semver.satisfies(version, range)`: `none` models the throw on an
invalid version; an unparsable range yields `some false`. -/
def satisfies (version range : String) : Option Bool :=
  match parseSemVer version with
  | none => none
  | some v =>
    some (match parseRange range with
      | none => false
      | some r => rangeMatches v r)

/-!  ### ServiceCluster operations -/

/-- Loop of `ServiceCluster.add` over a non-empty list.  `id` is the arena
index of the freshly allocated service (already appended to `store`),
`svc` its node value.  On reaching the tail the source runs
`service.prev = cur; cur.next = service`. -/
def addLoop (store : List Service) (c : Cluster) (id : Nat) (svc : Service)
    (cur : Nat) : Nat → Option (Except Err (List Service × Cluster))
  | 0 => none
  | fuel + 1 =>
    match store.get? cur with
    | none => none
    | some sv =>
      if sv.hash == svc.hash then
        some (.error ⟨"Service is already in cluster", 400⟩)
      else
        match sv.next with
        | none =>
          let store₁ := store.set id { svc with prev := some cur }
          let store₂ := store₁.set cur { sv with next := some id }
          some (.ok (store₂, c))
        | some nxt => addLoop store c id svc nxt fuel

/-- `ServiceCluster.add`.  On an empty list the source sets
`this.cursor = service; this.head = service`. -/
def clusterAdd (store : List Service) (c : Cluster) (id : Nat) (svc : Service) :
    Option (Except Err (List Service × Cluster)) :=
  match c.head with
  | none => some (.ok (store, { c with cursor := some id, head := some id }))
  | some h => addLoop store c id svc h (store.length + 1)

/-- Loop of `ServiceCluster.keep`: find the node with the given hash and
refresh its timestamp to `now`. -/
def keepLoop (store : List Service) (hash : String) (now : Nat) (cur : Nat) :
    Nat → Option (Except Err (List Service))
  | 0 => none
  | fuel + 1 =>
    match store.get? cur with
    | none => none
    | some sv =>
      if sv.hash == hash then
        some (.ok (store.set cur { sv with timestamp := now }))
      else
        match sv.next with
        | none => some (.error ⟨"Service not in cluster", 404⟩)
        | some nxt => keepLoop store hash now nxt fuel

/-- `ServiceCluster.keep`. -/
def clusterKeep (store : List Service) (c : Cluster) (hash : String) (now : Nat) :
    Option (Except Err (List Service)) :=
  match c.head with
  | none => some (.error ⟨"Cluster is empty", 404⟩)
  | some h => keepLoop store hash now h (store.length + 1)

/-- The unlink step of `ServiceCluster.remove` once the matching node `cur`
(value `sv`) has been found:

```js
if (!cur.prev) { this.head = cur.next; this.head && (this.head.prev = null); }
else if (cur.prev) { cur.prev.next = cur.next; }
this.cursor = this.head;
cur.prev = null; cur.next = null;
```

Note that the source never assigns `cur.next.prev` in the second branch. -/
def removeAt (store : List Service) (c : Cluster) (cur : Nat) (sv : Service) :
    Option (List Service × Cluster) :=
  match sv.prev with
  | none =>
    match sv.next with
    | some h2 =>
      match store.get? h2 with
      | none => none
      | some n2 =>
        let store₁ := store.set h2 { n2 with prev := none }
        let store₂ := store₁.set cur { sv with prev := none, next := none }
        some (store₂, { c with head := some h2, cursor := some h2 })
    | none =>
      let store₂ := store.set cur { sv with prev := none, next := none }
      some (store₂, { c with head := none, cursor := none })
  | some p =>
    match store.get? p with
    | none => none
    | some pn =>
      let store₁ := store.set p { pn with next := sv.next }
      let store₂ := store₁.set cur { sv with prev := none, next := none }
      some (store₂, { c with cursor := c.head })

/-- Loop of `ServiceCluster.remove`: find the first node with the given
hash and unlink it. -/
def removeLoop (store : List Service) (c : Cluster) (hash : String) (cur : Nat) :
    Nat → Option (Except Err (List Service × Cluster))
  | 0 => none
  | fuel + 1 =>
    match store.get? cur with
    | none => none
    | some sv =>
      if sv.hash == hash then
        match removeAt store c cur sv with
        | none => none
        | some r => some (.ok r)
      else
        match sv.next with
        | none => some (.error ⟨"Service not in cluster", 404⟩)
        | some nxt => removeLoop store c hash nxt fuel

/-- `ServiceCluster.remove`. -/
def clusterRemove (store : List Service) (c : Cluster) (hash : String) :
    Option (Except Err (List Service × Cluster)) :=
  match c.head with
  | none => some (.error ⟨"Cluster is empty", 404⟩)
  | some h => removeLoop store c hash h (store.length + 1)

/-- `ServiceCluster.get`: return the node at the cursor and advance the
cursor to the next node, wrapping to the head after the last. -/
def clusterGet (store : List Service) (c : Cluster) :
    Option (Except Err (Nat × Cluster)) :=
  match c.cursor with
  | none => some (.error ⟨"Cluster is empty", 404⟩)
  | some i =>
    match store.get? i with
    | none => none
    | some sv =>
      match sv.next with
      | none => some (.ok (i, { c with cursor := c.head }))
      | some j => some (.ok (i, { c with cursor := some j }))

/-- Loop of `ServiceCluster.prune`: walk the list along `next` references
saved before each removal (`let nxt = cur.next`), removing every node whose
timestamp predates the cutoff via the full `remove` method. -/
def pruneLoop (store : List Service) (c : Cluster) (cutoff : Nat)
    (cur : Option Nat) (counter : Nat) :
    Nat → Option (Except Err (List Service × Cluster × Nat))
  | 0 => none
  | fuel + 1 =>
    match cur with
    | none => some (.ok (store, c, counter))
    | some i =>
      match store.get? i with
      | none => none
      | some sv =>
        if sv.timestamp < cutoff then
          match clusterRemove store c sv.hash with
          | none => none
          | some (.error e) => some (.error e)
          | some (.ok (store', c')) =>
            pruneLoop store' c' cutoff sv.next (counter + 1) fuel
        else
          pruneLoop store c cutoff sv.next counter fuel

/-- `ServiceCluster.prune`. -/
def clusterPrune (store : List Service) (c : Cluster) (cutoff : Nat) :
    Option (Except Err (List Service × Cluster × Nat)) :=
  match c.head with
  | none => some (.error ⟨"Cluster is empty", 404⟩)
  | some h => pruneLoop store c cutoff (some h) 0 (store.length + 1)

/-- The node hashes along the `next` chain from a start reference; this is
the traversal performed by `ServiceCluster.getAll`. -/
def chainHashList (store : List Service) : Option Nat → Nat → Option (List String)
  | none, _ => some []
  | some _, 0 => none
  | some i, fuel + 1 =>
    match store.get? i with
    | none => none
    | some sv => (chainHashList store sv.next fuel).map (sv.hash :: ·)

/-- `ServiceCluster.getAll`: the hash summaries in sequence order. -/
def clusterGetAll (store : List Service) (c : Cluster) :
    Option (Except Err (List String)) :=
  match c.head with
  | none => some (.error ⟨"Cluster is empty", 404⟩)
  | some h => (chainHashList store (some h) (store.length + 1)).map .ok

/-!  ### ServiceRegistry operations -/

/-- The cluster discovery shared by `registerService`, `keepService` and
`removeService`: `this.clusters.find((c) => c.version === version)`,
returned as an index.  The lookup compares the version only, never the
name. -/
def findVersionIdx (clusters : List Cluster) (version : String) : Option Nat :=
  match clusters with
  | [] => none
  | c :: rest =>
    if c.version == version then some 0
    else (findVersionIdx rest version).map (· + 1)

/-- Lexicographic character-list order: the string comparison JavaScript's
relational operators perform on the cluster hashes. -/
def chListLt : List Char → List Char → Bool
  | [], [] => false
  | [], _ :: _ => true
  | _ :: _, [] => false
  | a :: as, b :: bs =>
    if a.val < b.val then true else if b.val < a.val then false else chListLt as bs

/-- String version of `chListLt`. -/
def strLt (a b : String) : Bool := chListLt a.data b.data

/-- Insertion sort by the comparator of `registerService`,
`(a, b) => (b.hash > a.hash ? 1 : -1)`: a cluster sorts before another
exactly when its hash is not lexicographically smaller — descending hash
order. -/
def sortClusters (l : List Cluster) : List Cluster :=
  l.insertionSort (fun a b => strLt a.hash b.hash = false)

/-- `ServiceRegistry.registerService`.  The source pushes a new, still
empty cluster, sorts, and only then adds the service; since the sort reads
only the cluster hash, which `add` never changes, sorting the list with the
already filled cluster is equivalent.  `now` models `_getTimestamp()` at
allocation time. -/
def registerService (ipv4 : Bool) (reg : Registry) (name version ip : String)
    (port now : Nat) : Option (Registry × Option Err) :=
  let svc := Service.init name version (formatIPV ipv4 ip) port now
  let id := reg.store.length
  let store₀ := reg.store ++ [svc]
  match findVersionIdx reg.clusters version with
  | some idx =>
    match reg.clusters.get? idx with
    | none => none
    | some c =>
      match clusterAdd store₀ c id svc with
      | none => none
      | some (.error e) => some (reg, some e)
      | some (.ok (store', c')) =>
        some ({ reg with store := store', clusters := reg.clusters.set idx c' }, none)
  | none =>
    match clusterAdd store₀ (Cluster.init name version) id svc with
    | none => none
    | some (.error e) => some (reg, some e)
    | some (.ok (store', c')) =>
      some ({ reg with
                store := store'
                clusters := sortClusters (reg.clusters ++ [c']) }, none)

/-- `ServiceRegistry.keepService`. -/
def keepService (ipv4 : Bool) (reg : Registry) (name version ip : String)
    (port now : Nat) : Option (Registry × Option Err) :=
  let ipv := formatIPV ipv4 ip
  let hash := serviceHash name version ipv port
  match findVersionIdx reg.clusters version with
  | none => some (reg, some ⟨"Service cluster does not exist", 400⟩)
  | some idx =>
    match reg.clusters.get? idx with
    | none => none
    | some c =>
      match clusterKeep reg.store c hash now with
      | none => none
      | some (.error e) => some (reg, some e)
      | some (.ok store') => some ({ reg with store := store' }, none)

/-- `ServiceRegistry.removeService`: delegate to the cluster's `remove`,
then drop the cluster from the array if its head became null. -/
def removeService (ipv4 : Bool) (reg : Registry) (name version ip : String)
    (port : Nat) : Option (Registry × Option Err) :=
  let ipv := formatIPV ipv4 ip
  let hash := serviceHash name version ipv port
  match findVersionIdx reg.clusters version with
  | none => some (reg, some ⟨"Service cluster does not exist", 400⟩)
  | some idx =>
    match reg.clusters.get? idx with
    | none => none
    | some c =>
      match clusterRemove reg.store c hash with
      | none => none
      | some (.error e) => some (reg, some e)
      | some (.ok (store', c')) =>
        if c'.head.isNone then
          some ({ reg with store := store', clusters := reg.clusters.eraseIdx idx }, none)
        else
          some ({ reg with store := store', clusters := reg.clusters.set idx c' }, none)

/-- The cluster scan of `getService`: the first cluster whose name equals
the requested name and whose version satisfies the expression.  The name
comparison short-circuits before `semver.satisfies` is consulted; a `none`
result models the throw of `semver.satisfies` on an invalid stored
version. -/
def findSatisfying (clusters : List Cluster) (name vexpr : String) (i : Nat) :
    Option (Option Nat) :=
  match clusters with
  | [] => some none
  | c :: rest =>
    if name == c.name then
      match satisfies c.version vexpr with
      | none => none
      | some true => some (some i)
      | some false => findSatisfying rest name vexpr (i + 1)
    else findSatisfying rest name vexpr (i + 1)

/-- `ServiceRegistry.getService`: resolve a name and version expression to
the hash of the entry at the matched cluster's cursor, advancing the
cursor. -/
def getService (reg : Registry) (name vexpr : String) :
    Option (Registry × Except Err String) :=
  if reg.clusters.isEmpty then
    some (reg, .error ⟨"Registry does not have any clusters", 404⟩)
  else
    match findSatisfying reg.clusters name vexpr 0 with
    | none => none
    | some none => some (reg, .error ⟨"Service cluster does not exist", 404⟩)
    | some (some idx) =>
      match reg.clusters.get? idx with
      | none => none
      | some c =>
        match clusterGet reg.store c with
        | none => none
        | some (.error e) => some (reg, .error e)
        | some (.ok (i, c')) =>
          match reg.store.get? i with
          | none => none
          | some sv =>
            some ({ reg with clusters := reg.clusters.set idx c' }, .ok sv.hash)

/-- Body of the health-check interval: visit the cluster array as
`Array.prototype.forEach` does (the length is captured once, and splicing
the current cluster shifts the rest left so that the next index is
skipped), prune each visited cluster with the previous cycle's timestamp,
and drop clusters whose head became null.  A thrown per-cluster error
aborts the whole callback, leaving the mutations made so far and the old
timestamp. -/
def pruneCycleLoop (store : List Service) (clusters : List Cluster)
    (cutoff : Nat) (k : Nat) :
    Nat → Option (List Service × List Cluster × Option Err)
  | 0 => some (store, clusters, none)
  | remaining + 1 =>
    match clusters.get? k with
    | none => pruneCycleLoop store clusters cutoff (k + 1) remaining
    | some c =>
      match clusterPrune store c cutoff with
      | none => none
      | some (.error e) => some (store, clusters, some e)
      | some (.ok (store', c', _cnt)) =>
        if c'.head.isNone then
          pruneCycleLoop store' (clusters.eraseIdx k) cutoff (k + 1) remaining
        else
          pruneCycleLoop store' (clusters.set k c') cutoff (k + 1) remaining

/-- One run of the health-check callback installed by the constructor.  On
an empty registry nothing happens (in particular the timestamp is not
updated); otherwise every cluster is pruned against the previous cycle's
timestamp and the timestamp is then set to `now`. -/
def pruneCycle (reg : Registry) (now : Nat) : Option (Registry × Option Err) :=
  if reg.clusters.isEmpty then some (reg, none)
  else
    match pruneCycleLoop reg.store reg.clusters reg.timestamp 0 reg.clusters.length with
    | none => none
    | some (store', clusters', some e) =>
      some ({ reg with store := store', clusters := clusters' }, some e)
    | some (store', clusters', none) =>
      some ({ store := store', clusters := clusters', timestamp := now }, none)

/-- The registry produced by the constructor at time `t0`. -/
def Registry.init (t0 : Nat) : Registry :=
  { store := [], clusters := [], timestamp := t0 }

/-!  ### Observers, scenario states and specification predicates -/

/-- Continue with the registry of an operation that returned without
throwing. -/
def okReg : Option (Registry × Option Err) → Option Registry
  | some (reg, none) => some reg
  | _ => none

/-- The entry sequence of the cluster at index `i`, as its hash list. -/
def clusterEntries (reg : Registry) (i : Nat) : Option (Except Err (List String)) :=
  (reg.clusters.get? i).bind fun c => clusterGetAll reg.store c

/-- Modelled from the spec (§4.1): the expression forms the Version Matcher
supports are an exact version, a major-only expression and a major.minor
expression (each optionally v-prefixed); a range-operator expression is not
among them. -/
def specSupportedExpr (expr : String) : Bool :=
  match parseRange expr with
  | some (.exact _ _ _) => true
  | some (.major _) => true
  | some (.majorMinor _ _) => true
  | _ => false

/-- Versions 1.10.0 and 1.2.0 of one service registered in turn. -/
def regLex : Option Registry :=
  (okReg (registerService false (Registry.init 0) "svc" "1.10.0" "10.0.0.1" 1111 0)).bind
    fun r => okReg (registerService false r "svc" "1.2.0" "10.0.0.2" 2222 0)

/-- Versions 1.0.0, 1.5.0 and 2.0.0 of one service registered in turn. -/
def regThree : Option Registry :=
  ((okReg (registerService false (Registry.init 0) "svc" "1.0.0" "10.0.0.1" 80 0)).bind
    fun r => okReg (registerService false r "svc" "1.5.0" "10.0.0.1" 81 0)).bind
    fun r => okReg (registerService false r "svc" "2.0.0" "10.0.0.1" 82 0)

/-- Two different service names registered under the same version. -/
def regTwoNames : Option Registry :=
  (okReg (registerService false (Registry.init 0) "a" "1.0.0" "10.0.0.1" 1 0)).bind
    fun r => okReg (registerService false r "b" "1.0.0" "10.0.0.2" 2 0)

/-- A single registered entry at version 1.5.0. -/
def regOne : Option Registry :=
  okReg (registerService false (Registry.init 0) "svc" "1.5.0" "10.0.0.1" 80 0)

/-- A cluster with the three entries A, B, C in insertion order. -/
def regABC : Option Registry :=
  ((okReg (registerService false (Registry.init 0) "s" "1.0.0" "A" 1 0)).bind
    fun r => okReg (registerService false r "s" "1.0.0" "B" 2 0)).bind
    fun r => okReg (registerService false r "s" "1.0.0" "C" 3 0)

/-- `regABC` after deregistering the middle entry B. -/
def regABCdropB : Option Registry :=
  regABC.bind fun r => okReg (removeService false r "s" "1.0.0" "B" 2)

/-- `regABCdropB` after deregistering the former tail entry C. -/
def regABCdropBC : Option Registry :=
  regABCdropB.bind fun r => okReg (removeService false r "s" "1.0.0" "C" 3)

/-- Entries F, B, C, G registered at time 0, a first health-check cycle at
time 5 (cutoff 0: nothing pruned, timestamp becomes 5), then keep-alives
for F and G at time 10.  B and C now predate the cycle boundary 5, F and G
do not. -/
def regFBCG : Option Registry :=
  ((((((okReg (registerService false (Registry.init 0) "s" "1.0.0" "F" 1 0)).bind
    fun r => okReg (registerService false r "s" "1.0.0" "B" 2 0)).bind
    fun r => okReg (registerService false r "s" "1.0.0" "C" 3 0)).bind
    fun r => okReg (registerService false r "s" "1.0.0" "G" 4 0)).bind
    fun r => okReg (pruneCycle r 5)).bind
    fun r => okReg (keepService false r "s" "1.0.0" "F" 1 10)).bind
    fun r => okReg (keepService false r "s" "1.0.0" "G" 4 10)

/-- The next health-check cycle over `regFBCG`, at time 35 with cutoff 5. -/
def prunedFBCG : Option (Registry × Option Err) :=
  regFBCG.bind fun r => pruneCycle r 35

/-- The entry sequence of a cluster as the chain of arena indices from a
start reference: the unique finite list obtained by following `next`. -/
inductive IsChainL (store : List Service) : Option Nat → List Nat → Prop
  | nil : IsChainL store none []
  | cons {i : Nat} {sv : Service} {t : List Nat} :
      store.get? i = some sv → IsChainL store sv.next t →
      IsChainL store (some i) (i :: t)

/-- Iterate `ServiceCluster.get` and collect the returned arena indices. -/
def selectN (store : List Service) (c : Cluster) : Nat → Option (List Nat × Cluster)
  | 0 => some ([], c)
  | n + 1 =>
    match clusterGet store c with
    | some (.ok (i, c')) => (selectN store c' n).map fun r => (i :: r.1, r.2)
    | _ => none

/-- Every cluster held by the registry has at least one entry (its head
reference is set). -/
def NEInv (reg : Registry) : Prop :=
  ∀ c ∈ reg.clusters, c.head.isSome

/-- The `next` reference of the node at an arena index, when both exist. -/
def nextOf (store : List Service) (j : Nat) : Option Nat :=
  (store.get? j).bind Service.next

/-- Arena indices stored in any node's links point into the arena. -/
def WFstore (store : List Service) : Prop :=
  ∀ i sv, store.get? i = some sv →
    (∀ j, sv.next = some j → j < store.length) ∧
    (∀ j, sv.prev = some j → j < store.length)

/-- Reachability along `next` references from a valid start node: the
nodes of a cluster's entry sequence are the ones reachable from its
head. -/
inductive Reach (store : List Service) : Nat → Nat → Prop
  | refl (i : Nat) : i < store.length → Reach store i i
  | step {h j k : Nat} {sv : Service} :
      Reach store h j → store.get? j = some sv → sv.next = some k →
      Reach store h k

/-- Every link of every node stays inside the owner class assigned by
`own` (nodes are owned by the version of the cluster that allocated
them). -/
def OwnLinks (store : List Service) (own : Nat → String) : Prop :=
  ∀ i sv, store.get? i = some sv →
    (∀ j, sv.next = some j → own j = own i) ∧
    (∀ j, sv.prev = some j → own j = own i)

/-- Per-cluster conditions of the registry invariant: the head and cursor
references are owned by the cluster's version class and the cursor is
reachable from the head along `next` references. -/
def ClustersOK (store : List Service) (own : Nat → String)
    (clusters : List Cluster) : Prop :=
  ∀ c ∈ clusters,
    (∀ h, c.head = some h → own h = c.version) ∧
    (∀ i, c.cursor = some i → own i = c.version) ∧
    ∃ h i, c.head = some h ∧ c.cursor = some i ∧ Reach store h i

/-- The in-flight form of the per-cluster conditions, used while a prune
cycle may have emptied the cluster: every condition is conditional on the
reference existing, and a set head still forces a set cursor. -/
def CWeak (store : List Service) (own : Nat → String) (c : Cluster) : Prop :=
  (∀ h, c.head = some h → own h = c.version ∧ h < store.length) ∧
  (∀ i, c.cursor = some i → own i = c.version ∧
    ∃ h, c.head = some h ∧ Reach store h i) ∧
  (c.head.isSome → c.cursor.isSome)

/-- The inductive invariant behind the cursor property, over a store and a
cluster list: well-formed link targets, pairwise distinct cluster
versions, and an ownership map separating the clusters' object graphs
under which every cluster's head and cursor are set and compatible. -/
def SInv (store : List Service) (clusters : List Cluster) : Prop :=
  WFstore store ∧ (clusters.map Cluster.version).Nodup ∧
  ∃ own : Nat → String, OwnLinks store own ∧ ClustersOK store own clusters

/-- The registry form of the invariant. -/
def Inv (reg : Registry) : Prop :=
  SInv reg.store reg.clusters

/-- What one `remove` (and hence one `prune` pass) does to the arena and
its cluster, seen from the invariant: the arena keeps its length, stays
well formed and class-closed, nodes of other classes are untouched, the
cluster keeps its identity and its references stay compatible. -/
def RStep (store store' : List Service) (own : Nat → String)
    (c c' : Cluster) : Prop :=
  store'.length = store.length ∧ WFstore store' ∧ OwnLinks store' own ∧
  (∀ j, own j ≠ c.version → store'.get? j = store.get? j) ∧
  CWeak store' own c' ∧
  c'.version = c.version ∧ c'.name = c.name ∧ c'.hash = c.hash

/-- The registry states the public operations can produce from a fresh
registry.  A prune cycle whose per-cluster prune throws kills the process
(the interval callback has no handler), so only completing cycles step. -/
inductive Reachable (ipv4 : Bool) : Registry → Prop
  | init (t0 : Nat) : Reachable ipv4 (Registry.init t0)
  | register {reg reg2 : Registry} {n v ip : String} {p now : Nat} {e : Option Err} :
      Reachable ipv4 reg →
      registerService ipv4 reg n v ip p now = some (reg2, e) → Reachable ipv4 reg2
  | keep {reg reg2 : Registry} {n v ip : String} {p now : Nat} {e : Option Err} :
      Reachable ipv4 reg →
      keepService ipv4 reg n v ip p now = some (reg2, e) → Reachable ipv4 reg2
  | remove {reg reg2 : Registry} {n v ip : String} {p : Nat} {e : Option Err} :
      Reachable ipv4 reg →
      removeService ipv4 reg n v ip p = some (reg2, e) → Reachable ipv4 reg2
  | resolve {reg reg2 : Registry} {n vx : String} {r : Except Err String} :
      Reachable ipv4 reg →
      getService reg n vx = some (reg2, r) → Reachable ipv4 reg2
  | prune {reg reg2 : Registry} {now : Nat} :
      Reachable ipv4 reg →
      pruneCycle reg now = some (reg2, none) → Reachable ipv4 reg2

/-- A three-node arena chained 0 → 1 → 2, for concrete selection runs. -/
def chain3store : List Service :=
  [{ hash := "s0", timestamp := 0, prev := none, next := some 1 },
   { hash := "s1", timestamp := 0, prev := some 0, next := some 2 },
   { hash := "s2", timestamp := 0, prev := some 1, next := none }]

/-- A cluster over `chain3store` whose cursor stands at the middle node. -/
def chain3cluster : Cluster :=
  { hash := "s/v1.0.0", name := "s", version := "1.0.0",
    head := some 0, cursor := some 1 }

end ServiceRegistry

namespace ServiceRegistry

/-!  ## Theorems -/

/-- The lookup by version finds nothing exactly when no cluster carries the
version. -/
theorem findVersionIdx_eq_none {clusters : List Cluster} {v : String}
    (h : ∀ c ∈ clusters, c.version ≠ v) : findVersionIdx clusters v = none := by
  induction clusters with
  | nil => rfl
  | cons c rest ih =>
    have hc : (c.version == v) = false := by
      simp only [beq_eq_false_iff_ne, ne_eq]
      exact h c (List.mem_cons_self c rest)
    have hr : findVersionIdx rest v = none :=
      ih fun x hx => h x (List.mem_cons_of_mem c hx)
    simp [findVersionIdx, hc, hr]

/-- A version found at no index means no cluster carries it. -/
theorem findVersionIdx_none_forall {clusters : List Cluster} {v : String}
    (h : findVersionIdx clusters v = none) : ∀ c ∈ clusters, c.version ≠ v := by
  induction clusters with
  | nil => intro c hc; cases hc
  | cons d rest ih =>
    intro c hc
    by_cases hd : (d.version == v) = true
    · simp [findVersionIdx, hd] at h
    · have h2 : findVersionIdx rest v = none := by
        by_cases hr : findVersionIdx rest v = none
        · exact hr
        · simp [findVersionIdx, hd, Option.map_eq_none] at h
          exact h
      rcases List.mem_cons.mp hc with rfl | hm
      · exact fun he => hd (beq_iff_eq.mpr he)
      · exact ih h2 c hm

/-- The cluster at the found index carries the version. -/
theorem findVersionIdx_version {clusters : List Cluster} {v : String} {idx : Nat}
    (h : findVersionIdx clusters v = some idx) :
    ∀ c, clusters.get? idx = some c → c.version = v := by
  induction clusters generalizing idx with
  | nil => cases h
  | cons d rest ih =>
    simp only [findVersionIdx] at h
    split at h
    · rename_i hd
      cases h
      intro c hc
      simp only [List.get?, Option.some.injEq] at hc
      subst hc
      exact beq_iff_eq.mp hd
    · cases hr : findVersionIdx rest v with
      | none => rw [hr] at h; cases h
      | some j =>
        rw [hr] at h
        simp at h
        subst h
        intro c hc
        exact ih hr c hc

/-- Replacing the found cluster by one with the same version leaves the
version lookup unchanged. -/
theorem findVersionIdx_set {clusters : List Cluster} {v : String} {idx : Nat}
    {c c2 : Cluster} (hg : clusters.get? idx = some c)
    (hv : c2.version = c.version) :
    findVersionIdx (clusters.set idx c2) v = findVersionIdx clusters v := by
  induction clusters generalizing idx with
  | nil => cases hg
  | cons d rest ih =>
    cases idx with
    | zero =>
      simp only [List.get?, Option.some.injEq] at hg
      subst hg
      simp [List.set, findVersionIdx, hv]
    | succ j =>
      simp only [List.get?] at hg
      simp [List.set, findVersionIdx, ih hg]

/-- When the clusters with version `v` are exactly the value `c`, the
version lookup finds an index holding `c`. -/
theorem findVersionIdx_unique {clusters : List Cluster} {v : String} {c : Cluster}
    (hc : c ∈ clusters) (hcv : c.version = v)
    (huniq : ∀ x ∈ clusters, x.version = v → x = c) :
    ∃ j, findVersionIdx clusters v = some j ∧ clusters.get? j = some c := by
  induction clusters with
  | nil => cases hc
  | cons d rest ih =>
    by_cases hd : (d.version == v) = true
    · have : d = c := huniq d (List.mem_cons_self d rest) (beq_iff_eq.mp hd)
      exact ⟨0, by simp [findVersionIdx, hd], by simp [this]⟩
    · have hcr : c ∈ rest := by
        rcases List.mem_cons.mp hc with rfl | hm
        · exact absurd (beq_iff_eq.mpr hcv) hd
        · exact hm
      obtain ⟨j, hj, hjg⟩ :=
        ih hcr fun x hx hxv => huniq x (List.mem_cons_of_mem d hx) hxv
      exact ⟨j + 1, by simp [findVersionIdx, hd, hj], by simpa using hjg⟩

/-- A successful `add` leaves the cluster record unchanged and appends the
new node after the old tail: the store changes only by the two pointer
writes `service.prev = tail; tail.next = service`. -/
theorem addLoop_ok_shape {store : List Service} {c : Cluster} {id : Nat}
    {svc : Service} {cur fuel : Nat} {store2 : List Service} {c2 : Cluster}
    (hok : addLoop store c id svc cur fuel = some (.ok (store2, c2))) :
    c2 = c ∧ ∃ t svt, store.get? t = some svt ∧ svt.next = none ∧
      (svt.hash == svc.hash) = false ∧
      store2 = (store.set id { svc with prev := some t }).set t
        { svt with next := some id } := by
  induction fuel generalizing cur with
  | zero => cases hok
  | succ fuel ih =>
    simp only [addLoop] at hok
    split at hok
    · cases hok
    · rename_i sv hcur
      split at hok
      · cases hok
      · rename_i hh
        split at hok
        · rename_i hnx
          simp only [Option.some.injEq, Except.ok.injEq, Prod.mk.injEq] at hok
          exact ⟨hok.2.symm, cur, sv, hcur, hnx, Bool.eq_false_iff.mpr hh,
            hok.1.symm⟩
        · rename_i nxt hnx
          exact ih hok

/-- Running `add` again with a service of the same hash, over the store
left by a successful first `add`, finds the node the first run appended
and fails with DuplicateEntry.  `fuel1` bounds the first traversal and the
second run has at least one more step of fuel. -/
theorem addLoop_dup {store : List Service} {c : Cluster} {id : Nat}
    {svc : Service} {fuel1 : Nat} {store2 : List Service} {c2 : Cluster}
    {cb : Cluster} {svcb : Service} {idb : Nat}
    (hid : store.get? id = some svc) (hnx : svc.next = none)
    (hhash : svcb.hash = svc.hash) :
    ∀ cur fuel2, fuel1 + 1 ≤ fuel2 →
    addLoop store c id svc cur fuel1 = some (.ok (store2, c2)) →
    addLoop (store2 ++ [svcb]) cb idb svcb cur fuel2 =
      some (.error ⟨"Service is already in cluster", 400⟩) := by
  induction fuel1 with
  | zero => intro cur fuel2 _ hok; cases hok
  | succ fuel1 ih =>
    intro cur fuel2 hfuel hok
    simp only [addLoop] at hok
    split at hok
    · cases hok
    · rename_i sv hcur
      split at hok
      · cases hok
      · rename_i hh
        have hh : ¬(sv.hash == svc.hash) = true := hh
        have hcurlt : cur < store.length := List.get?_eq_some.mp hcur |>.1
        have hidlt : id < store.length := List.get?_eq_some.mp hid |>.1
        have hcurid : cur ≠ id := by
          intro he
          rw [he, hid] at hcur
          cases hcur
          exact hh (beq_iff_eq.mpr rfl)
        cases fuel2 with
        | zero => cases hfuel
        | succ f2 =>
          split at hok
          · rename_i hnx2
            simp only [Option.some.injEq, Except.ok.injEq, Prod.mk.injEq] at hok
            obtain ⟨hs2, _hc2⟩ := hok
            subst hs2
            have hget : ((store.set id { svc with prev := some cur }).set cur
                { sv with next := some id } ++ [svcb]).get? cur =
                some { sv with next := some id } := by
              rw [List.get?_append (by simpa using hcurlt)]
              rw [List.get?_set_eq]
              rw [List.get?_set_ne _ _ (fun he => hcurid he.symm)]
              rw [hcur]
              rfl
            simp only [addLoop, hget]
            have hbh : ({ sv with next := some id }.hash == svcb.hash) = false := by
              simp only [hhash]
              exact Bool.eq_false_iff.mpr hh
            rw [hbh]
            simp only [Bool.false_eq_true, if_false]
            have hf2 : 1 ≤ f2 := by omega
            cases f2 with
            | zero => omega
            | succ g =>
              have hgetid : ((store.set id { svc with prev := some cur }).set cur
                  { sv with next := some id } ++ [svcb]).get? id =
                  some { svc with prev := some cur } := by
                rw [List.get?_append (by simpa using hidlt)]
                rw [List.get?_set_ne _ _ hcurid]
                rw [List.get?_set_eq, hid]
                rfl
              simp only [addLoop, hgetid]
              have : ({ svc with prev := some cur }.hash == svcb.hash) = true := by
                simp only [hhash]
                exact beq_iff_eq.mpr rfl
              rw [this]
              simp
          · rename_i nxt hnx2
            obtain ⟨hc2eq, t, svt, hgt, hnt, hth, hs2⟩ := addLoop_ok_shape hok
            have hcurt : cur ≠ t := by
              intro he
              rw [he, hgt] at hcur
              cases hcur
              rw [hnt] at hnx2
              cases hnx2
            have hget : (store2 ++ [svcb]).get? cur = some sv := by
              rw [List.get?_append (by rw [hs2]; simpa using hcurlt)]
              rw [hs2]
              rw [List.get?_set_ne _ _ (fun he => hcurt he.symm)]
              rw [List.get?_set_ne _ _ (fun he => hcurid he.symm)]
              exact hcur
            simp only [addLoop, hget]
            have hbh : (sv.hash == svcb.hash) = false := by
              simp only [hhash]
              exact Bool.eq_false_iff.mpr hh
            rw [hbh]
            simp only [Bool.false_eq_true, if_false, hnx2]
            exact ih nxt f2 (by omega) hok

/-- Finding a node with the service's hash makes `add` fail with
DuplicateEntry at once. -/
theorem addLoop_found {store : List Service} {c : Cluster} {id : Nat}
    {svc : Service} {cur : Nat} {sv : Service}
    (hget : store.get? cur = some sv) (hh : (sv.hash == svc.hash) = true)
    (fuel : Nat) :
    addLoop store c id svc cur (fuel + 1) =
      some (.error ⟨"Service is already in cluster", 400⟩) := by
  simp only [addLoop, hget, hh, if_true]

/-- C4 (confirmed): registering the very same (name, version, address,
port) tuple again, after a registration that succeeded, fails with
DuplicateEntry and returns the registry exactly as the first registration
left it — the affected cluster's entry sequence included. -/
theorem C4_duplicate_register (ipv4 : Bool) (reg reg1 : Registry)
    (n v ip : String) (p now now2 : Nat)
    (h : registerService ipv4 reg n v ip p now = some (reg1, none)) :
    registerService ipv4 reg1 n v ip p now2 =
      some (reg1, some ⟨"Service is already in cluster", 400⟩) := by
  simp only [registerService] at h
  split at h
  · rename_i idx hf
    split at h
    · cases h
    · rename_i c hg
      split at h
      · cases h
      · simp at h
      · rename_i store2 c2 hadd
        simp only [Option.some.injEq, Prod.mk.injEq] at h
        obtain ⟨hreg1, -⟩ := h
        subst hreg1
        cases hh : c.head with
        | none =>
          simp only [clusterAdd, hh, Option.some.injEq, Except.ok.injEq, Prod.mk.injEq] at hadd
          obtain ⟨hst, hcl⟩ := hadd
          subst hst
          subst hcl
          have hfind : findVersionIdx (reg.clusters.set idx { c with cursor := some reg.store.length, head := some reg.store.length }) v = some idx := by
            rw [@findVersionIdx_set reg.clusters v idx c { c with cursor := some reg.store.length, head := some reg.store.length } hg rfl]
            exact hf
          have hget2 : (reg.clusters.set idx { c with cursor := some reg.store.length, head := some reg.store.length }).get? idx = some { c with cursor := some reg.store.length, head := some reg.store.length } := by
            rw [List.get?_set_eq, hg]
            rfl
          simp only [registerService, hfind, hget2, clusterAdd]
          have hlen : ((reg.store ++ [Service.init n v (formatIPV ipv4 ip) p now]) ++ [Service.init n v (formatIPV ipv4 ip) p now2]).length + 1 = (reg.store.length + 2) + 1 := by
            simp
          rw [hlen]
          have hgetid : ((reg.store ++ [Service.init n v (formatIPV ipv4 ip) p now]) ++ [Service.init n v (formatIPV ipv4 ip) p now2]).get? reg.store.length = some (Service.init n v (formatIPV ipv4 ip) p now) := by
            rw [List.get?_append (by simp)]
            exact List.get?_concat_length _ _
          have hloop : addLoop ((reg.store ++ [Service.init n v (formatIPV ipv4 ip) p now]) ++ [Service.init n v (formatIPV ipv4 ip) p now2]) { c with cursor := some reg.store.length, head := some reg.store.length } ((reg.store ++ [Service.init n v (formatIPV ipv4 ip) p now]).length) (Service.init n v (formatIPV ipv4 ip) p now2) reg.store.length ((reg.store.length + 2) + 1) = some (.error ⟨"Service is already in cluster", 400⟩) :=
            addLoop_found hgetid (by exact beq_iff_eq.mpr rfl) (reg.store.length + 2)
          rw [hloop]
        | some h0 =>
          simp only [clusterAdd, hh] at hadd
          obtain ⟨hc2c, t, svt, hgt, hnt, -, hs2⟩ := addLoop_ok_shape hadd
          subst hc2c
          have hfind : findVersionIdx (reg.clusters.set idx c2) v = some idx := by
            rw [@findVersionIdx_set reg.clusters v idx c2 c2 hg rfl]
            exact hf
          have hget2 : (reg.clusters.set idx c2).get? idx = some c2 := by
            rw [List.get?_set_eq, hg]
            rfl
          simp only [registerService, hfind, hget2, clusterAdd, hh]
          have hlen : (store2 ++ [Service.init n v (formatIPV ipv4 ip) p now2]).length + 1 = ((reg.store ++ [Service.init n v (formatIPV ipv4 ip) p now]).length + 1) + 1 := by
            simp [hs2]
          rw [hlen]
          have hloop : addLoop (store2 ++ [Service.init n v (formatIPV ipv4 ip) p now2]) c2 store2.length (Service.init n v (formatIPV ipv4 ip) p now2) h0 (((reg.store ++ [Service.init n v (formatIPV ipv4 ip) p now]).length + 1) + 1) = some (.error ⟨"Service is already in cluster", 400⟩) :=
            addLoop_dup (by exact List.get?_concat_length _ _) (by exact rfl) (by exact rfl) h0 _ (Nat.le_refl _) hadd
          rw [hloop]
  · rename_i hf
    split at h
    · rename_i hnone
      simp [clusterAdd, Cluster.init] at hnone
    · rename_i e herr
      simp [clusterAdd, Cluster.init] at herr
    · rename_i store2 c2 hadd
      simp only [clusterAdd, Cluster.init, Option.some.injEq, Except.ok.injEq, Prod.mk.injEq] at hadd
      obtain ⟨hst, hcl⟩ := hadd
      subst hst
      subst hcl
      simp only [Option.some.injEq, Prod.mk.injEq] at h
      obtain ⟨hreg1, -⟩ := h
      subst hreg1
      have hmem : ({ hash := clusterHash n v, name := n, version := v, head := some reg.store.length, cursor := some reg.store.length } : Cluster) ∈ sortClusters (reg.clusters ++ [({ hash := clusterHash n v, name := n, version := v, head := some reg.store.length, cursor := some reg.store.length } : Cluster)]) :=
        (List.perm_insertionSort _ _).mem_iff.mpr
          (List.mem_append_right _ (List.mem_singleton_self _))
      obtain ⟨j, hj, hjg⟩ := @findVersionIdx_unique (sortClusters (reg.clusters ++ [({ hash := clusterHash n v, name := n, version := v, head := some reg.store.length, cursor := some reg.store.length } : Cluster)])) v ({ hash := clusterHash n v, name := n, version := v, head := some reg.store.length, cursor := some reg.store.length } : Cluster) hmem rfl (by
        intro x hx hxv
        rcases List.mem_append.mp ((List.perm_insertionSort _ _).mem_iff.mp hx)
          with hm | hm
        · exact absurd hxv (findVersionIdx_none_forall hf x hm)
        · simpa using hm)
      simp only [registerService, hj, hjg, clusterAdd]
      have hlen : ((reg.store ++ [Service.init n v (formatIPV ipv4 ip) p now]) ++ [Service.init n v (formatIPV ipv4 ip) p now2]).length + 1 = (reg.store.length + 2) + 1 := by
        simp
      rw [hlen]
      have hgetid : ((reg.store ++ [Service.init n v (formatIPV ipv4 ip) p now]) ++ [Service.init n v (formatIPV ipv4 ip) p now2]).get? reg.store.length = some (Service.init n v (formatIPV ipv4 ip) p now) := by
        rw [List.get?_append (by simp)]
        exact List.get?_concat_length _ _
      have hloop : addLoop ((reg.store ++ [Service.init n v (formatIPV ipv4 ip) p now]) ++ [Service.init n v (formatIPV ipv4 ip) p now2]) ({ hash := clusterHash n v, name := n, version := v, head := some reg.store.length, cursor := some reg.store.length } : Cluster) ((reg.store ++ [Service.init n v (formatIPV ipv4 ip) p now]).length) (Service.init n v (formatIPV ipv4 ip) p now2) reg.store.length ((reg.store.length + 2) + 1) = some (.error ⟨"Service is already in cluster", 400⟩) :=
        addLoop_found hgetid (by exact beq_iff_eq.mpr rfl) (reg.store.length + 2)
      rw [hloop]

/-- C4 witness: a concrete double registration of the same tuple. -/
theorem C4_witness :
    ∃ r1, registerService false (Registry.init 0) "svc" "1.5.0" "10.0.0.1" 80 0 =
        some (r1, none) ∧
      registerService false r1 "svc" "1.5.0" "10.0.0.1" 80 7 =
        some (r1, some ⟨"Service is already in cluster", 400⟩) := by
  obtain ⟨r1, h1⟩ :
      ∃ r1, registerService false (Registry.init 0) "svc" "1.5.0" "10.0.0.1" 80 0 =
        some (r1, none) := ⟨_, rfl⟩
  exact ⟨r1, h1, C4_duplicate_register false (Registry.init 0) r1
    "svc" "1.5.0" "10.0.0.1" 80 0 7 h1⟩

/-- C1 (corrected, counterexample): the claim that `resolve` returns an
Entry from the highest-precedence satisfying cluster fails.  With versions
1.10.0 and 1.2.0 registered under one name, both satisfy the expression
"1" and 1.10.0 has the higher semantic-version precedence, yet the
clusters are stored in descending lexicographic hash order — 1.2.0 first —
and `getService` returns the entry of the 1.2.0 cluster. -/
theorem C1_counterexample :
    (regLex.map fun r => r.clusters.map fun c => c.hash) =
      some ["svc/v1.2.0", "svc/v1.10.0"] ∧
    ((regLex.bind fun r => getService r "svc" "1").map fun p => p.2) =
      some (.ok "10.0.0.2:2222/svc/v1.2.0") ∧
    satisfies "1.10.0" "1" = some true ∧
    satisfies "1.2.0" "1" = some true ∧
    semverLt (1, 2, 0) (1, 10, 0) = true :=
  ⟨rfl, rfl, rfl, rfl, rfl⟩

/-- C1 (corrected, amended): clusters are kept sorted by descending
lexicographic order of their hash strings and `resolve` returns an Entry
from the first cluster in that stored order whose name matches and whose
version satisfies the expression.  On the spec's example — versions 1.0.0,
1.5.0 and 2.0.0 under one name, where lexicographic and precedence order
agree — `resolve(name, "1")` returns the entry of the 1.5.0 cluster. -/
theorem C1_amended :
    (regThree.map fun r => r.clusters.map fun c => c.hash) =
      some ["svc/v2.0.0", "svc/v1.5.0", "svc/v1.0.0"] ∧
    ((regThree.bind fun r => getService r "svc" "1").map fun p => p.2) =
      some (.ok "10.0.0.1:81/svc/v1.5.0") :=
  ⟨rfl, rfl⟩

/-- C3 (corrected, counterexample): cluster lookup is not by (name,
version).  After registering ("a", "1.0.0") and then ("b", "1.0.0"), no
cluster named "b" exists — the lookup matched on the version alone and
b's entry was added to the cluster named "a". -/
theorem C3_counterexample :
    (regTwoNames.map fun r => r.clusters.map fun c => (c.name, c.version)) =
      some [("a", "1.0.0")] ∧
    (regTwoNames.bind fun r => clusterEntries r 0) =
      some (.ok ["10.0.0.1:1/a/v1.0.0", "10.0.0.2:2/b/v1.0.0"]) :=
  ⟨rfl, rfl⟩

/-- C7 (corrected, counterexample): expression matching is not restricted
to the prefix forms.  The caret range "^1.0.0" is not one of the
spec-supported expression forms, yet `resolve` honours node-semver caret
semantics and returns the 1.5.0 entry for it. -/
theorem C7_counterexample :
    specSupportedExpr "^1.0.0" = false ∧
    satisfies "1.5.0" "^1.0.0" = some true ∧
    ((regOne.bind fun r => getService r "svc" "^1.0.0").map fun p => p.2) =
      some (.ok "10.0.0.1:80/svc/v1.5.0") :=
  ⟨rfl, rfl, rfl⟩

/-- C7 (corrected, amended): matching follows node-semver range
satisfaction.  For the prefix forms the claim's description holds — an
exact expression matches exactly the identical triple, a major or
major.minor expression matches precisely the versions sharing the stated
prefix — but range operators are supported too: a caret range is parsed
and honoured, e.g. "^1.0.0" matches 1.5.0. -/
theorem C7_amended :
    (∀ x y z a b c : Nat,
      (rangeMatches (x, y, z) (.exact a b c) = true ↔ x = a ∧ y = b ∧ z = c) ∧
      (rangeMatches (x, y, z) (.major a) = true ↔ x = a) ∧
      (rangeMatches (x, y, z) (.majorMinor a b) = true ↔ x = a ∧ y = b)) ∧
    parseRange "^1.0.0" = some (.caret 1 0 0) ∧
    satisfies "1.5.0" "^1.0.0" = some true := by
  refine ⟨fun x y z a b c => ⟨?_, ?_, ?_⟩, rfl, rfl⟩
  · simp [rangeMatches, Prod.ext_iff]
  · simp [rangeMatches]
  · simp [rangeMatches]

/-- C8 (corrected, counterexample): a deregister call naming a (name,
version) pair with no matching cluster does not always fail with
ClusterNotFound.  With only the cluster ("a", "1.0.0") present, a call for
("b", "1.0.0") finds that cluster by version, fails to find b's hash in it
and throws `Service not in cluster` (404) rather than
`Service cluster does not exist` (400). -/
theorem C8_counterexample :
    (regTwoNames.map fun r => r.clusters.map fun c => (c.name, c.version)) ≠
      some [("b", "1.0.0")] ∧
    ((okReg (registerService false (Registry.init 0) "a" "1.0.0" "10.0.0.1" 1 0)).bind
        fun r => removeService false r "b" "1.0.0" "10.0.0.1" 1).map (fun p => p.2) =
      some (some ⟨"Service not in cluster", 404⟩) := by
  exact ⟨by decide, rfl⟩

/-- C6 (code_bug): one prune cycle does not remove exactly the stale
entries.  With entries F, B, C, G where B and C predate the cutoff 5 and
F, G were refreshed at time 10, the cycle completes without error but the
surviving sequence is [F, C]: the stale entry C is retained (its removal
inside `prune` rewired the unlinked node B instead of its live
predecessor) and the fresh entry G has been cut off and lost. -/
theorem C6_prune_bug :
    (regFBCG.map fun r => (r.timestamp, r.store.map fun s => (s.hash, s.timestamp))) =
      some (5, [("F:1/s/v1.0.0", 10), ("B:2/s/v1.0.0", 0),
                ("C:3/s/v1.0.0", 0), ("G:4/s/v1.0.0", 10)]) ∧
    (prunedFBCG.map fun p => p.2) = some none ∧
    (prunedFBCG.bind fun p => clusterEntries p.1 0) =
      some (.ok ["F:1/s/v1.0.0", "C:3/s/v1.0.0"]) :=
  ⟨rfl, rfl, rfl⟩

/-- C10 (code_bug): the entry sequence does not stay a well-formed doubly
linked list.  After deregistering the middle entry B of [A, B, C], node A
(index 0) has `next` = C (index 2) but C's `prev` still names the unlinked
node B (index 1); deregistering C afterwards then rewires the detached B
and leaves C reachable from the head. -/
theorem C10_remove_bug :
    (regABCdropB.map fun r => r.store.map fun s => (s.hash, s.prev, s.next)) =
      some [("A:1/s/v1.0.0", none, some 2), ("B:2/s/v1.0.0", none, none),
            ("C:3/s/v1.0.0", some 1, none)] ∧
    (regABCdropBC.bind fun r => clusterEntries r 0) =
      some (.ok ["A:1/s/v1.0.0", "C:3/s/v1.0.0"]) :=
  ⟨rfl, rfl⟩

/-- C3 (corrected, amended): the cluster lookup of register, keepAlive and
deregister matches on the version only.  When no cluster with the
requested version exists, keepAlive and deregister fail with
ClusterNotFound, and register creates a fresh cluster carrying the
registering service's name and version and exactly the one new entry. -/
theorem C3_amended (ipv4 : Bool) (reg : Registry) (n v ip : String) (p now : Nat)
    (hv : ∀ c ∈ reg.clusters, c.version ≠ v) :
    keepService ipv4 reg n v ip p now =
      some (reg, some ⟨"Service cluster does not exist", 400⟩) ∧
    removeService ipv4 reg n v ip p =
      some (reg, some ⟨"Service cluster does not exist", 400⟩) ∧
    ∃ reg', registerService ipv4 reg n v ip p now = some (reg', none) ∧
      ∃ c ∈ reg'.clusters, c.name = n ∧ c.version = v ∧
        clusterGetAll reg'.store c =
          some (.ok [serviceHash n v (formatIPV ipv4 ip) p]) := by
  have hf : findVersionIdx reg.clusters v = none := findVersionIdx_eq_none hv
  refine ⟨by simp [keepService, hf], by simp [removeService, hf], ?_⟩
  refine ⟨{ reg with
              store := reg.store ++
                [{ hash := serviceHash n v (formatIPV ipv4 ip) p, timestamp := now,
                   prev := none, next := none }]
              clusters := sortClusters (reg.clusters ++
                [{ hash := clusterHash n v, name := n, version := v,
                   head := some reg.store.length,
                   cursor := some reg.store.length }]) }, ?_, ?_⟩
  · simp [registerService, hf, clusterAdd, Cluster.init, Service.init]
  · refine ⟨{ hash := clusterHash n v, name := n, version := v,
              head := some reg.store.length,
              cursor := some reg.store.length }, ?_, rfl, rfl, ?_⟩
    · exact (List.perm_insertionSort _ _).mem_iff.mpr
        (List.mem_append_right _ (List.mem_singleton_self _))
    · simp [clusterGetAll, chainHashList, Service.init, List.get?_concat_length,
        List.length_append]

/-- C3 witness: on the empty registry, keep-alive and deregister for
version 1.0.0 fail with ClusterNotFound and registration creates the
cluster. -/
theorem C3_amended_witness :
    (∀ c ∈ (Registry.init 0).clusters, c.version ≠ "1.0.0") ∧
    (keepService false (Registry.init 0) "x" "1.0.0" "10.0.0.1" 1 5 =
       some (Registry.init 0, some ⟨"Service cluster does not exist", 400⟩) ∧
     removeService false (Registry.init 0) "x" "1.0.0" "10.0.0.1" 1 =
       some (Registry.init 0, some ⟨"Service cluster does not exist", 400⟩) ∧
     ∃ reg', registerService false (Registry.init 0) "x" "1.0.0" "10.0.0.1" 1 5 =
         some (reg', none) ∧
       ∃ c ∈ reg'.clusters, c.name = "x" ∧ c.version = "1.0.0" ∧
         clusterGetAll reg'.store c =
           some (.ok [serviceHash "x" "1.0.0" (formatIPV false "10.0.0.1") 1])) :=
  ⟨by decide, C3_amended false (Registry.init 0) "x" "1.0.0" "10.0.0.1" 1 5 (by decide)⟩

/-- C8 (corrected, amended): a deregister call naming a version carried by
no cluster fails with ClusterNotFound and returns the unchanged registry;
more generally, every failing deregister call leaves the registry
unchanged. -/
theorem C8_amended (ipv4 : Bool) (reg : Registry) (n v ip : String) (p : Nat)
    (hv : ∀ c ∈ reg.clusters, c.version ≠ v) :
    removeService ipv4 reg n v ip p =
      some (reg, some ⟨"Service cluster does not exist", 400⟩) ∧
    ∀ (n2 v2 ip2 : String) (p2 : Nat) (reg2 : Registry) (e : Err),
      removeService ipv4 reg n2 v2 ip2 p2 = some (reg2, some e) → reg2 = reg := by
  refine ⟨by simp [removeService, findVersionIdx_eq_none hv], ?_⟩
  intro n2 v2 ip2 p2 reg2 e h
  simp only [removeService] at h
  split at h
  · simp only [Option.some.injEq, Prod.mk.injEq] at h
    exact h.1.symm
  · split at h
    · exact absurd h (by simp)
    · split at h
      · exact absurd h (by simp)
      · simp only [Option.some.injEq, Prod.mk.injEq] at h
        exact h.1.symm
      · split at h <;> simp at h

/-- C8 witness: on the empty registry, deregistering version 1.0.0 fails
with ClusterNotFound and the registry is unchanged. -/
theorem C8_amended_witness :
    (∀ c ∈ (Registry.init 0).clusters, c.version ≠ "1.0.0") ∧
    (removeService false (Registry.init 0) "x" "1.0.0" "10.0.0.1" 1 =
       some (Registry.init 0, some ⟨"Service cluster does not exist", 400⟩) ∧
     ∀ (n2 v2 ip2 : String) (p2 : Nat) (reg2 : Registry) (e : Err),
       removeService false (Registry.init 0) n2 v2 ip2 p2 = some (reg2, some e) →
         reg2 = Registry.init 0) :=
  ⟨by decide, C8_amended false (Registry.init 0) "x" "1.0.0" "10.0.0.1" 1 (by decide)⟩

/-- Each visited cluster of the health-check loop is dropped the moment
its head becomes null, and skipped clusters keep their entries: a
completing loop leaves no empty cluster behind. -/
theorem pruneCycleLoop_ne (cutoff : Nat) :
    ∀ (remaining k : Nat) (store : List Service) (clusters : List Cluster)
      (store2 : List Service) (clusters2 : List Cluster),
      (∀ c ∈ clusters, c.head.isSome) →
      pruneCycleLoop store clusters cutoff k remaining =
        some (store2, clusters2, none) →
      ∀ c ∈ clusters2, c.head.isSome := by
  intro remaining
  induction remaining with
  | zero =>
    intro k store clusters store2 clusters2 hpre h
    simp only [pruneCycleLoop, Option.some.injEq, Prod.mk.injEq] at h
    obtain ⟨-, hcl, -⟩ := h
    subst hcl
    exact hpre
  | succ rem ih =>
    intro k store clusters store2 clusters2 hpre h
    simp only [pruneCycleLoop] at h
    split at h
    · exact ih _ _ _ _ _ hpre h
    · rename_i c hg
      split at h
      · cases h
      · simp at h
      · rename_i store1 c1 cnt hp
        split at h
        · refine ih _ _ _ _ _ ?_ h
          intro x hx
          exact hpre x (List.mem_of_mem_eraseIdx hx)
        · rename_i hif
          refine ih _ _ _ _ _ ?_ h
          intro x hx
          rcases List.mem_or_eq_of_mem_set hx with hx2 | hx2
          · exact hpre x hx2
          · subst hx2
            simpa [Option.isSome_iff_ne_none, Option.isNone_iff_eq_none] using hif

/-- C5 (confirmed): from a registry whose clusters all hold at least one
entry, any deregister call — succeeding or failing — and any completing
health-check cycle leave only clusters holding at least one entry. -/
theorem C5_no_empty_clusters (reg : Registry) (hpre : NEInv reg) :
    (∀ (ipv4 : Bool) (n v ip : String) (p : Nat) (reg2 : Registry) (e : Option Err),
      removeService ipv4 reg n v ip p = some (reg2, e) → NEInv reg2) ∧
    (∀ (now : Nat) (reg2 : Registry),
      pruneCycle reg now = some (reg2, none) → NEInv reg2) := by
  constructor
  · intro ipv4 n v ip p reg2 e h
    simp only [removeService] at h
    split at h
    · simp only [Option.some.injEq, Prod.mk.injEq] at h
      obtain ⟨hr, -⟩ := h
      subst hr
      exact hpre
    · rename_i idx hf
      split at h
      · cases h
      · rename_i c hg
        split at h
        · cases h
        · simp only [Option.some.injEq, Prod.mk.injEq] at h
          obtain ⟨hr, -⟩ := h
          subst hr
          exact hpre
        · rename_i store1 c1 hr
          split at h
          · simp only [Option.some.injEq, Prod.mk.injEq] at h
            obtain ⟨hr2, -⟩ := h
            subst hr2
            intro x hx
            exact hpre x (List.mem_of_mem_eraseIdx hx)
          · rename_i hif
            simp only [Option.some.injEq, Prod.mk.injEq] at h
            obtain ⟨hr2, -⟩ := h
            subst hr2
            intro x hx
            rcases List.mem_or_eq_of_mem_set hx with hx2 | hx2
            · exact hpre x hx2
            · subst hx2
              simpa [Option.isSome_iff_ne_none, Option.isNone_iff_eq_none] using hif
  · intro now reg2 h
    simp only [pruneCycle] at h
    split at h
    · simp only [Option.some.injEq, Prod.mk.injEq] at h
      obtain ⟨hr, -⟩ := h
      subst hr
      exact hpre
    · split at h
      · cases h
      · simp at h
      · rename_i store1 clusters1 hloop
        simp only [Option.some.injEq, Prod.mk.injEq] at h
        obtain ⟨hr, -⟩ := h
        subst hr
        exact pruneCycleLoop_ne reg.timestamp _ _ _ _ _ _ hpre hloop

/-- C5 witness: the invariant instantiated on a concrete registry. -/
theorem C5_witness :
    NEInv (Registry.init 3) ∧
    ((∀ (ipv4 : Bool) (n v ip : String) (p : Nat) (reg2 : Registry) (e : Option Err),
      removeService ipv4 (Registry.init 3) n v ip p = some (reg2, e) → NEInv reg2) ∧
     (∀ (now : Nat) (reg2 : Registry),
      pruneCycle (Registry.init 3) now = some (reg2, none) → NEInv reg2)) :=
  ⟨fun c hc => absurd hc (List.not_mem_nil c),
   C5_no_empty_clusters (Registry.init 3) fun c hc => absurd hc (List.not_mem_nil c)⟩

/-- Following `next` from a fixed start yields at most one chain list. -/
theorem ischain_unique {store : List Service} {o : Option Nat} {l1 l2 : List Nat}
    (h1 : IsChainL store o l1) (h2 : IsChainL store o l2) : l1 = l2 := by
  induction h1 generalizing l2 with
  | nil => cases h2 with
    | nil => rfl
  | cons hg ht ih =>
    cases h2 with
    | cons hg2 ht2 =>
      rw [hg] at hg2
      cases hg2
      rw [ih ht2]

/-- A chain starts at its first element. -/
theorem ischain_head {store : List Service} {o : Option Nat} {l : List Nat}
    (h : IsChainL store o l) : o = l.head? := by
  cases h <;> rfl

/-- Every tail of a chain, cut at a member, is itself a chain from that
member. -/
theorem ischain_drop {store : List Service} {o : Option Nat} {l : List Nat}
    (h : IsChainL store o l) :
    ∀ k i, l.get? k = some i → IsChainL store (some i) (l.drop k) := by
  induction h with
  | nil => intro k i hk; cases hk
  | cons hg ht ih =>
    intro k i hk
    cases k with
    | zero =>
      simp only [List.get?, Option.some.injEq] at hk
      subst hk
      exact IsChainL.cons hg ht
    | succ k =>
      simp only [List.get?] at hk
      exact ih k i hk

/-- A chain never repeats an arena index. -/
theorem ischain_nodup {store : List Service} {o : Option Nat} {l : List Nat}
    (h : IsChainL store o l) : l.Nodup := by
  induction h with
  | nil => exact List.nodup_nil
  | cons hg ht ih =>
    rename_i i sv t
    refine List.nodup_cons.mpr ⟨?_, ih⟩
    intro hmem
    obtain ⟨k, hk⟩ := List.mem_iff_get?.mp hmem
    have h1 : IsChainL store (some i) (i :: t) := IsChainL.cons hg ht
    have h2 : IsChainL store (some i) ((i :: t).drop (k + 1)) :=
      ischain_drop h1 (k + 1) i (by simpa using hk)
    have heq := ischain_unique h1 h2
    have hlen : (i :: t).length = ((i :: t).drop (k + 1)).length := by rw [← heq]
    rw [List.length_drop] at hlen
    have hklt : k < t.length := (List.get?_eq_some.mp hk).1
    simp only [List.length_cons] at hlen
    omega

/-- The node at chain position `k` exists in the arena and its `next`
reference is the chain entry at position `k + 1`. -/
theorem ischain_node {store : List Service} {o : Option Nat} {l : List Nat}
    (h : IsChainL store o l) :
    ∀ k i, l.get? k = some i →
      ∃ sv, store.get? i = some sv ∧ sv.next = l.get? (k + 1) := by
  induction h with
  | nil => intro k i hk; cases hk
  | cons hg ht ih =>
    rename_i j sv t
    intro k i hk
    cases k with
    | zero =>
      simp only [List.get?, Option.some.injEq] at hk
      subst hk
      refine ⟨sv, hg, ?_⟩
      have hh := ischain_head ht
      simp only [List.get?]
      rw [hh, List.get?_zero]
    | succ k =>
      simp only [List.get?] at hk
      simpa using ih k i hk

/-- One `select` call, at cursor position `k` of the chain: it returns the
entry at `k` and moves the cursor to position `(k + 1) mod N`. -/
theorem clusterGet_spec {store : List Service} {c : Cluster} {h : Nat}
    {l : List Nat} (hch : IsChainL store (some h) l) (hhead : c.head = some h)
    {k i : Nat} (hk : l.get? k = some i) (hcur : c.cursor = some i) :
    clusterGet store c =
      some (.ok (i, { c with cursor := l.get? ((k + 1) % l.length) })) := by
  obtain ⟨sv, hsv, hnx⟩ := ischain_node hch k i hk
  have hklt : k < l.length := (List.get?_eq_some.mp hk).1
  simp only [clusterGet, hcur, hsv]
  cases hn : sv.next with
  | none =>
    have hnone : l.get? (k + 1) = none := by rw [← hnx, hn]
    have hge : l.length ≤ k + 1 := List.get?_eq_none.mp hnone
    have hkeq : k + 1 = l.length := by omega
    have hmod : (k + 1) % l.length = 0 := by rw [hkeq, Nat.mod_self]
    have hget0 : l.get? 0 = some h := by
      cases hch with
      | cons hg2 ht2 => rfl
    rw [hmod, hget0, hhead]
  | some j =>
    have hj : l.get? (k + 1) = some j := by rw [← hnx, hn]
    have hlt : k + 1 < l.length := (List.get?_eq_some.mp hj).1
    rw [Nat.mod_eq_of_lt hlt, hj]

/-- Iterated selection starting at chain position `k`: `n ≤ N` calls
return the window of length `n` of the rotation of the chain at `k`, and
leave the cursor at position `(k + n) mod N`. -/
theorem selectN_spec {store : List Service} {h : Nat} {l : List Nat}
    (hch : IsChainL store (some h) l) :
    ∀ (n : Nat) (c : Cluster) (k : Nat), c.head = some h → k < l.length →
      c.cursor = l.get? k → n ≤ l.length →
      selectN store c n =
        some ((l.rotate k).take n,
          { c with cursor := l.get? ((k + n) % l.length) }) := by
  intro n
  induction n with
  | zero =>
    intro c k hhead hk hcur _
    have hmod : (k + 0) % l.length = k := by rw [Nat.add_zero, Nat.mod_eq_of_lt hk]
    rw [hmod, ← hcur]
    rfl
  | succ n ih =>
    intro c k hhead hk hcur hn
    obtain ⟨i, hik⟩ : ∃ i, l.get? k = some i := by
      rw [List.get?_eq_get hk]
      exact ⟨_, rfl⟩
    have hcur2 : c.cursor = some i := by rw [hcur, hik]
    have hget := clusterGet_spec hch hhead hik hcur2
    have hmodlt : (k + 1) % l.length < l.length :=
      Nat.mod_lt _ (Nat.lt_of_le_of_lt (Nat.zero_le k) hk)
    have hrec := ih { c with cursor := l.get? ((k + 1) % l.length) }
      ((k + 1) % l.length) hhead hmodlt rfl (by omega)
    simp only [selectN, hget, hrec, Option.map_some', Option.some.injEq,
      Prod.mk.injEq]
    constructor
    · rw [List.rotate_mod l (k + 1)]
      have hdrop : l.drop k = i :: l.drop (k + 1) := by
        have hd := List.drop_eq_get_cons hk
        rw [List.get?_eq_get hk] at hik
        cases hik
        exact hd
      have hrk : l.rotate k = i :: (l.drop (k + 1) ++ l.take k) := by
        rw [List.rotate_eq_drop_append_take (Nat.le_of_lt hk), hdrop]
        rfl
      have htk : l.take (k + 1) = l.take k ++ [i] := by
        rw [List.take_succ]
        rw [show l[k]? = some i from by rw [← List.get?_eq_getElem?]; exact hik]
        rfl
      have hrk1 : l.rotate (k + 1) = l.drop (k + 1) ++ (l.take k ++ [i]) := by
        rw [List.rotate_eq_drop_append_take (by omega), htk]
      rw [hrk, hrk1, List.take_succ_cons]
      congr 1
      rw [← List.append_assoc]
      have hlen2 : n ≤ (l.drop (k + 1) ++ l.take k).length := by
        simp only [List.length_append, List.length_drop, List.length_take,
          Nat.min_eq_left (Nat.le_of_lt hk)]
        omega
      rw [List.take_append_of_le_length hlen2]
    · rw [Nat.mod_add_mod]
      have harith : k + 1 + n = k + (n + 1) := by omega
      rw [harith]

/-- C2 (confirmed): with the cluster's entry sequence given by the chain
`l` from its head and the cursor at position `k`, N = |l| consecutive
`select` calls return the rotation of the chain at `k` — every entry
exactly once (the output is a duplicate-free permutation of the chain)
before any repeat, in sequence order with wrap-around. -/
theorem C2_round_robin (store : List Service) (c : Cluster) (h : Nat)
    (l : List Nat) (k : Nat) (hch : IsChainL store (some h) l)
    (hhead : c.head = some h) (hk : k < l.length)
    (hcur : c.cursor = l.get? k) :
    ∃ c2, selectN store c l.length = some (l.rotate k, c2) ∧
      (l.rotate k).Perm l ∧ (l.rotate k).Nodup := by
  have hs := selectN_spec hch l.length c k hhead hk hcur (Nat.le_refl _)
  refine ⟨{ c with cursor := l.get? ((k + l.length) % l.length) }, ?_,
    List.rotate_perm l k,
    (List.Perm.nodup_iff (List.rotate_perm l k)).mpr (ischain_nodup hch)⟩
  rw [hs]
  have : (l.rotate k).take l.length = l.rotate k := by
    have hlen : (l.rotate k).length = l.length := List.length_rotate l k
    rw [← hlen, List.take_length]
  rw [this]

/-- C2 witness: three chained entries, cursor at the middle one; three
selections return entries 1, 2, 0 — each exactly once. -/
theorem C2_witness :
    ∃ c2, selectN chain3store chain3cluster ([0, 1, 2] : List Nat).length =
        some (([0, 1, 2] : List Nat).rotate 1, c2) ∧
      (([0, 1, 2] : List Nat).rotate 1).Perm [0, 1, 2] ∧
      (([0, 1, 2] : List Nat).rotate 1).Nodup :=
  C2_round_robin chain3store chain3cluster 0 [0, 1, 2] 1
    (IsChainL.cons rfl (IsChainL.cons rfl (IsChainL.cons rfl IsChainL.nil)))
    rfl (by decide) rfl

/-!  ### Reachability lemmas for the cursor invariant -/

/-- The start of a reachability path is a valid index. -/
theorem reach_start_lt {store : List Service} {h i : Nat}
    (hr : Reach store h i) : h < store.length := by
  induction hr with
  | refl hlt => exact hlt
  | step _ _ _ ih => exact ih

/-- Under well-formed links every reachable index is valid. -/
theorem reach_lt {store : List Service} {h i : Nat} (hwf : WFstore store)
    (hr : Reach store h i) : i < store.length := by
  induction hr with
  | refl hlt => exact hlt
  | step _ hg hn ih => exact (hwf _ _ hg).1 _ hn

/-- Reachability stays inside the owner class of its start. -/
theorem reach_own {store : List Service} {own : Nat → String} {h i : Nat}
    (hown : OwnLinks store own) (hr : Reach store h i) : own i = own h := by
  induction hr with
  | refl _ => rfl
  | step _ hg hn ih => exact ((hown _ _ hg).1 _ hn).trans ih

/-- Reachability composes. -/
theorem reach_trans {store : List Service} {a b c : Nat}
    (h1 : Reach store a b) (h2 : Reach store b c) : Reach store a c := by
  induction h2 with
  | refl _ => exact h1
  | step _ hg hn ih => exact Reach.step ih hg hn

/-- Growing the arena preserves reachability. -/
theorem reach_append {store : List Service} {l : List Service} {h i : Nat}
    (hr : Reach store h i) : Reach (store ++ l) h i := by
  induction hr with
  | refl hlt =>
    exact Reach.refl _ (by simp only [List.length_append]; omega)
  | step _ hg hn ih =>
    refine Reach.step ih ?_ hn
    rw [List.get?_append (List.get?_eq_some.mp hg).1]
    exact hg

/-- A path in the old arena stays below the old length and is a path of
the old arena, when the old links are well formed. -/
theorem reach_append_bound {store : List Service} {l : List Service} {h i : Nat}
    (hwf : WFstore store) (hh : h < store.length)
    (hr : Reach (store ++ l) h i) : i < store.length ∧ Reach store h i := by
  induction hr with
  | refl hlt => exact ⟨hh, Reach.refl _ hh⟩
  | step hr2 hg hn ih =>
    rename_i j k sv
    obtain ⟨hjlt, hrj⟩ := ih
    have hg2 : store.get? j = some sv := by
      rw [List.get?_append hjlt] at hg
      exact hg
    exact ⟨(hwf _ _ hg2).1 _ hn, Reach.step hrj hg2 hn⟩

/-- Reachability only depends on the `next` references of the nodes it
visits. -/
theorem reach_nextOf_congr {store store2 : List Service} {h i : Nat}
    (hlen : store.length = store2.length)
    (hsame : ∀ j, nextOf store2 j = nextOf store j)
    (hr : Reach store h i) : Reach store2 h i := by
  induction hr with
  | refl hlt => exact Reach.refl _ (hlen ▸ hlt)
  | step hr2 hg hn ih =>
    rename_i j k sv
    have h2j : nextOf store2 j = some k := by
      rw [hsame j]
      simp only [nextOf, hg, Option.some_bind]
      exact hn
    obtain ⟨sv2, hg2, hn2⟩ := Option.bind_eq_some.mp h2j
    exact Reach.step ih hg2 hn2

/-- Reachability survives overwriting a node that has no `next`
reference. -/
theorem reach_set_terminal {store : List Service} {t : Nat} {tn a : Service}
    {h i : Nat} (hget : store.get? t = some tn) (hnx : tn.next = none)
    (hr : Reach store h i) : Reach (store.set t a) h i := by
  induction hr with
  | refl hlt => exact Reach.refl _ (by simpa using hlt)
  | step hr2 hg hn ih =>
    rename_i j k sv
    by_cases hjt : j = t
    · subst hjt
      rw [hget] at hg
      cases hg
      rw [hnx] at hn
      cases hn
    · refine Reach.step ih ?_ hn
      rw [List.get?_set_ne _ _ (fun he => hjt he.symm)]
      exact hg

/-- Reachability inside one owner class survives any rewrite that leaves
the nodes of that class untouched. -/
theorem reach_same_class {store store2 : List Service} {own : Nat → String}
    {w : String} {h i : Nat} (hlen : store.length = store2.length)
    (hsame : ∀ j, own j = w → store2.get? j = store.get? j)
    (hown : OwnLinks store own) (hw : own h = w)
    (hr : Reach store h i) : Reach store2 h i := by
  induction hr with
  | refl hlt => exact Reach.refl _ (hlen ▸ hlt)
  | step hr2 hg hn ih =>
    rename_i j k sv
    have hj : own j = w := (reach_own hown hr2).trans hw
    refine Reach.step ih ?_ hn
    rw [hsame j hj]
    exact hg

/-!  ### Arena and cluster-list bookkeeping -/

/-- Lookup through a single `set`, as one case split. -/
theorem get?_set_cases {α : Type*} (l : List α) (x : Nat) (a : α) (i : Nat) :
    (l.set x a).get? i = if i = x ∧ x < l.length then some a else l.get? i := by
  by_cases hix : i = x
  · subst hix
    by_cases hlt : i < l.length
    · rw [if_pos ⟨rfl, hlt⟩, List.get?_set_eq, List.get?_eq_get hlt]
      rfl
    · rw [if_neg fun hc => hlt hc.2]
      have h1 : (l.set i a).get? i = none := by
        rw [List.get?_eq_none, List.length_set]
        omega
      rw [h1, (List.get?_eq_none).mpr (by omega)]
  · rw [if_neg fun hc => hix hc.1]
    exact List.get?_set_ne a l fun he => hix he.symm

/-- Lookup through appending one element, as one case split. -/
theorem get?_append_one {α : Type*} (l : List α) (a : α) (i : Nat) :
    (l ++ [a]).get? i = if i = l.length then some a else l.get? i := by
  by_cases he : i = l.length
  · subst he
    rw [if_pos rfl]
    exact List.get?_concat_length l a
  · rw [if_neg he]
    by_cases hlt : i < l.length
    · exact List.get?_append hlt
    · have h1 : (l ++ [a]).get? i = none := by
        rw [List.get?_eq_none]
        simp only [List.length_append, List.length_cons, List.length_nil]
        omega
      rw [h1, (List.get?_eq_none).mpr (by omega)]

/-- Writing back the element already stored changes nothing. -/
theorem set_get_self {α : Type*} {l : List α} {i : Nat} {a : α}
    (h : l.get? i = some a) : l.set i a = l := by
  induction l generalizing i with
  | nil => rfl
  | cons x xs ih =>
    cases i with
    | zero =>
      simp only [List.get?] at h
      cases h
      rfl
    | succ j =>
      simp only [List.get?] at h
      simp only [List.set]
      rw [ih h]

/-- A list splits at any index holding a known element. -/
theorem self_decomp {α : Type*} {l : List α} {i : Nat} {a : α}
    (h : l.get? i = some a) : l = l.take i ++ a :: l.drop (i + 1) := by
  induction l generalizing i with
  | nil => cases h
  | cons x xs ih =>
    cases i with
    | zero =>
      simp only [List.get?] at h
      cases h
      simp
    | succ j =>
      simp only [List.get?] at h
      simp only [List.take, List.drop, List.cons_append, List.cons.injEq]
      exact ⟨trivial, ih h⟩

/-- `set` in the split form. -/
theorem set_decomp {α : Type*} {l : List α} {i : Nat} {a : α} (b : α)
    (h : l.get? i = some a) : l.set i b = l.take i ++ b :: l.drop (i + 1) := by
  induction l generalizing i with
  | nil => cases h
  | cons x xs ih =>
    cases i with
    | zero => simp
    | succ j =>
      simp only [List.get?] at h
      simp only [List.set, List.take, List.drop, List.cons_append,
        List.cons.injEq]
      exact ⟨trivial, ih h⟩

/-- Members of the split without its middle element are list members. -/
theorem mem_of_take_drop {α : Type*} {l : List α} {i : Nat} {x : α}
    (hm : x ∈ l.take i ++ l.drop (i + 1)) : x ∈ l := by
  rcases List.mem_append.mp hm with h | h
  · exact List.take_subset i l h
  · exact List.drop_subset (i + 1) l h

/-- With pairwise distinct cluster versions, every cluster other than the
one at a given index carries a different version. -/
theorem middle_facts {clusters : List Cluster} {k : Nat} {c : Cluster}
    (hgk : clusters.get? k = some c)
    (hnd : (clusters.map Cluster.version).Nodup) :
    ∀ c2 ∈ clusters.take k ++ clusters.drop (k + 1),
      c2 ∈ clusters ∧ c2.version ≠ c.version := by
  intro c2 hm
  refine ⟨mem_of_take_drop hm, ?_⟩
  have hnd2 : ((clusters.take k ++ c :: clusters.drop (k + 1)).map
      Cluster.version).Nodup := by
    rw [← self_decomp hgk]
    exact hnd
  rw [List.map_append, List.map_cons, List.nodup_middle, List.nodup_cons]
    at hnd2
  intro he
  apply hnd2.1
  rw [← List.map_append]
  exact List.mem_map.mpr ⟨c2, hm, he⟩

/-- `WFstore` after overwriting one slot with a node whose links stay in
range. -/
theorem wfstore_set {store : List Service} {x : Nat} {a : Service}
    (hwf : WFstore store)
    (hn : ∀ j, a.next = some j → j < store.length)
    (hp : ∀ j, a.prev = some j → j < store.length) :
    WFstore (store.set x a) := by
  intro i sv hg
  rw [get?_set_cases] at hg
  split at hg
  · cases hg
    exact ⟨fun j hj => by rw [List.length_set]; exact hn j hj,
           fun j hj => by rw [List.length_set]; exact hp j hj⟩
  · obtain ⟨h1, h2⟩ := hwf i sv hg
    exact ⟨fun j hj => by rw [List.length_set]; exact h1 j hj,
           fun j hj => by rw [List.length_set]; exact h2 j hj⟩

/-- `OwnLinks` after overwriting one slot with a node whose links stay in
its owner class. -/
theorem ownlinks_set {store : List Service} {own : Nat → String} {x : Nat}
    {a : Service} (hol : OwnLinks store own)
    (hn : ∀ j, a.next = some j → own j = own x)
    (hp : ∀ j, a.prev = some j → own j = own x) :
    OwnLinks (store.set x a) own := by
  intro i sv hg
  rw [get?_set_cases] at hg
  split at hg
  · rename_i hc
    cases hg
    obtain ⟨hix, -⟩ := hc
    subst hix
    exact ⟨hn, hp⟩
  · exact hol i sv hg

/-- `WFstore` after appending an unlinked node. -/
theorem wfstore_append {store : List Service} {a : Service}
    (hwf : WFstore store) (hn : a.next = none) (hp : a.prev = none) :
    WFstore (store ++ [a]) := by
  intro i sv hg
  rw [get?_append_one] at hg
  split at hg
  · cases hg
    exact ⟨fun j hj => Option.noConfusion (hn ▸ hj),
           fun j hj => Option.noConfusion (hp ▸ hj)⟩
  · obtain ⟨h1, h2⟩ := hwf i sv hg
    have hlen : store.length ≤ (store ++ [a]).length := by simp
    exact ⟨fun j hj => Nat.lt_of_lt_of_le (h1 j hj) hlen,
           fun j hj => Nat.lt_of_lt_of_le (h2 j hj) hlen⟩

/-- `OwnLinks` after appending an unlinked node, with the ownership map
extended at the fresh index. -/
theorem ownlinks_append {store : List Service} {own : Nat → String}
    {a : Service} (w : String) (hwf : WFstore store) (hol : OwnLinks store own)
    (hn : a.next = none) (hp : a.prev = none) :
    OwnLinks (store ++ [a])
      (fun j => if j = store.length then w else own j) := by
  intro i sv hg
  rw [get?_append_one] at hg
  split at hg
  · cases hg
    exact ⟨fun j hj => Option.noConfusion (hn ▸ hj),
           fun j hj => Option.noConfusion (hp ▸ hj)⟩
  · rename_i hi
    obtain ⟨h1, h2⟩ := hol i sv hg
    obtain ⟨w1, w2⟩ := hwf i sv hg
    constructor
    · intro j hj
      show (if j = store.length then w else own j) =
        (if i = store.length then w else own i)
      rw [if_neg (Nat.ne_of_lt (w1 j hj)), if_neg hi]
      exact h1 j hj
    · intro j hj
      show (if j = store.length then w else own j) =
        (if i = store.length then w else own i)
      rw [if_neg (Nat.ne_of_lt (w2 j hj)), if_neg hi]
      exact h2 j hj

/-- Overwriting a node without touching its `next` reference leaves every
`nextOf` intact. -/
theorem nextOf_set_same {store : List Service} {x : Nat} {sv a : Service}
    (hg : store.get? x = some sv) (hx : a.next = sv.next) :
    ∀ j, nextOf (store.set x a) j = nextOf store j := by
  intro j
  simp only [nextOf]
  rw [get?_set_cases]
  split
  · rename_i hc
    obtain ⟨hjx, -⟩ := hc
    subst hjx
    rw [hg]
    simp only [Option.some_bind]
    exact hx
  · rfl

/-- The per-cluster conditions imply their in-flight form. -/
theorem cweak_of_clustersOK {store : List Service} {own : Nat → String}
    {clusters : List Cluster} {c : Cluster}
    (hok : ClustersOK store own clusters) (hm : c ∈ clusters) :
    CWeak store own c := by
  obtain ⟨h1, h2, h, i, hh, hi, hri⟩ := hok c hm
  refine ⟨?_, ?_, ?_⟩
  · intro h0 hh0
    cases hh0.symm.trans hh
    exact ⟨h1 _ hh0, reach_start_lt hri⟩
  · intro i0 hi0
    cases hi0.symm.trans hi
    exact ⟨h2 _ hi0, h, hh, hri⟩
  · intro
    rw [hi]
    rfl

/-- The shape of a successful `add` together with its walk: the old tail
is reachable from the start of the traversal. -/
theorem addLoop_ok_shape2 {store : List Service} {c : Cluster} {id : Nat}
    {svc : Service} {cur fuel : Nat} {store2 : List Service} {c2 : Cluster}
    (hok : addLoop store c id svc cur fuel = some (.ok (store2, c2))) :
    c2 = c ∧ ∃ t svt, store.get? t = some svt ∧ svt.next = none ∧
      Reach store cur t ∧
      store2 = (store.set id { svc with prev := some t }).set t
        { svt with next := some id } := by
  induction fuel generalizing cur with
  | zero => cases hok
  | succ fuel ih =>
    simp only [addLoop] at hok
    split at hok
    · cases hok
    · rename_i sv hcur
      split at hok
      · cases hok
      · rename_i hh
        split at hok
        · rename_i hnx
          simp only [Option.some.injEq, Except.ok.injEq, Prod.mk.injEq] at hok
          refine ⟨hok.2.symm, cur, sv, hcur, hnx, ?_, hok.1.symm⟩
          exact Reach.refl _ (List.get?_eq_some.mp hcur).1
        · rename_i nxt hnx
          obtain ⟨hc2, t, svt, hgt, hnt, hrt, hs2⟩ := ih hok
          exact ⟨hc2, t, svt, hgt, hnt,
            reach_trans (Reach.step (Reach.refl _ (List.get?_eq_some.mp hcur).1)
              hcur hnx) hrt, hs2⟩

/-- A successful `keep` refreshes exactly one node's timestamp. -/
theorem keepLoop_shape {store : List Service} {hash : String} {now : Nat}
    {cur fuel : Nat} {store' : List Service}
    (hok : keepLoop store hash now cur fuel = some (.ok store')) :
    ∃ t sv, store.get? t = some sv ∧
      store' = store.set t { sv with timestamp := now } := by
  induction fuel generalizing cur with
  | zero => cases hok
  | succ fuel ih =>
    simp only [keepLoop] at hok
    split at hok
    · cases hok
    · rename_i sv hcur
      split at hok
      · simp only [Option.some.injEq, Except.ok.injEq] at hok
        exact ⟨cur, sv, hcur, hok.symm⟩
      · split at hok
        · cases hok
        · exact ih hok

/-!  ### Invariant preservation of the public operations -/

/-- `keepService` preserves the invariant. -/
theorem keep_sinv {ipv4 : Bool} {reg reg2 : Registry} {n v ip : String}
    {p now : Nat} {e : Option Err}
    (hs : SInv reg.store reg.clusters)
    (hk : keepService ipv4 reg n v ip p now = some (reg2, e)) :
    SInv reg2.store reg2.clusters := by
  simp only [keepService] at hk
  split at hk
  · simp only [Option.some.injEq, Prod.mk.injEq] at hk
    rw [← hk.1]
    exact hs
  · rename_i idx hfind
    split at hk
    · cases hk
    · rename_i c hgc
      split at hk
      · cases hk
      · simp only [Option.some.injEq, Prod.mk.injEq] at hk
        rw [← hk.1]
        exact hs
      · rename_i store' hck
        have hshape : ∃ t sv, reg.store.get? t = some sv ∧
            store' = reg.store.set t { sv with timestamp := now } := by
          simp only [clusterKeep] at hck
          split at hck
          · cases hck
          · exact keepLoop_shape hck
        obtain ⟨t, sv, hgt, hst⟩ := hshape
        obtain ⟨hwf, hnd, own, hol, hokc⟩ := hs
        have main : SInv (reg.store.set t { sv with timestamp := now })
            reg.clusters := by
          refine ⟨?_, hnd, own, ?_, ?_⟩
          · exact wfstore_set hwf (fun j hj => (hwf t sv hgt).1 j hj)
              (fun j hj => (hwf t sv hgt).2 j hj)
          · exact ownlinks_set hol (fun j hj => (hol t sv hgt).1 j hj)
              (fun j hj => (hol t sv hgt).2 j hj)
          · intro c2 hc2
            obtain ⟨g1, g2, h, i, hh, hi, hri⟩ := hokc c2 hc2
            refine ⟨g1, g2, h, i, hh, hi, ?_⟩
            exact reach_nextOf_congr (by rw [List.length_set])
              (nextOf_set_same hgt rfl) hri
        simp only [Option.some.injEq, Prod.mk.injEq] at hk
        rw [← hk.1, hst]
        exact main

/-- Replacing one cluster's cursor by a reference that satisfies the
per-cluster conditions preserves the invariant, the store unchanged. -/
theorem sinv_set_cursor {store : List Service} {clusters : List Cluster}
    {idx : Nat} {c : Cluster} {cur2 : Option Nat}
    (hs : SInv store clusters) (hgc : clusters.get? idx = some c)
    (hok2 : ∀ own : Nat → String, OwnLinks store own →
      ClustersOK store own clusters →
      ∃ h i, c.head = some h ∧ cur2 = some i ∧ own i = c.version ∧
        Reach store h i) :
    SInv store (clusters.set idx { c with cursor := cur2 }) := by
  obtain ⟨hwf, hnd, own, hol, hokc⟩ := hs
  obtain ⟨h, i, hh, hcur, howni, hri⟩ := hok2 own hol hokc
  refine ⟨hwf, ?_, own, hol, ?_⟩
  · rw [List.map_set]
    have hvm : (clusters.map Cluster.version).get? idx = some c.version := by
      rw [List.get?_map, hgc]
      rfl
    have hveq : ({ c with cursor := cur2 } : Cluster).version = c.version := rfl
    rw [hveq, set_get_self hvm]
    exact hnd
  · rw [set_decomp _ hgc]
    intro c2 hc2
    rcases List.mem_append.mp hc2 with hm | hm
    · have hside := middle_facts hgc hnd c2 (List.mem_append_left _ hm)
      exact hokc c2 hside.1
    · rcases List.mem_cons.mp hm with he | hm2
      · subst he
        refine ⟨?_, ?_, h, i, hh, hcur, hri⟩
        · intro h0 hh0
          exact (hokc c (List.get?_mem hgc)).1 h0 hh0
        · intro i0 hi0
          cases hi0.symm.trans hcur
          exact howni
      · have hside := middle_facts hgc hnd c2 (List.mem_append_right _ hm2)
        exact hokc c2 hside.1

/-- `getService` preserves the invariant. -/
theorem get_sinv {reg reg2 : Registry} {nm vx : String} {r : Except Err String}
    (hs : SInv reg.store reg.clusters)
    (hg : getService reg nm vx = some (reg2, r)) :
    SInv reg2.store reg2.clusters := by
  simp only [getService] at hg
  split at hg
  · simp only [Option.some.injEq, Prod.mk.injEq] at hg
    rw [← hg.1]
    exact hs
  · split at hg
    · cases hg
    · simp only [Option.some.injEq, Prod.mk.injEq] at hg
      rw [← hg.1]
      exact hs
    · rename_i idx hfs
      split at hg
      · cases hg
      · rename_i c hgc
        split at hg
        · cases hg
        · simp only [Option.some.injEq, Prod.mk.injEq] at hg
          rw [← hg.1]
          exact hs
        · rename_i i0 c' hcg
          split at hg
          · cases hg
          · rename_i sv0 hgi0
            simp only [Option.some.injEq, Prod.mk.injEq] at hg
            rw [← hg.1]
            simp only [clusterGet] at hcg
            split at hcg
            · cases hcg
            · rename_i i1 hcur1
              split at hcg
              · cases hcg
              · rename_i sv1 hg1
                split at hcg
                · rename_i hnx1
                  simp only [Option.some.injEq, Except.ok.injEq,
                    Prod.mk.injEq] at hcg
                  obtain ⟨-, hc'⟩ := hcg
                  rw [← hc']
                  refine sinv_set_cursor hs hgc ?_
                  intro own hol hokc
                  obtain ⟨g1, g2, h, i, hh, hi, hri⟩ :=
                    hokc c (List.get?_mem hgc)
                  exact ⟨h, h, hh, hh, g1 h hh,
                    Reach.refl _ (reach_start_lt hri)⟩
                · rename_i j1 hnx1
                  simp only [Option.some.injEq, Except.ok.injEq,
                    Prod.mk.injEq] at hcg
                  obtain ⟨-, hc'⟩ := hcg
                  rw [← hc']
                  refine sinv_set_cursor hs hgc ?_
                  intro own hol hokc
                  obtain ⟨g1, g2, h, i, hh, hi, hri⟩ :=
                    hokc c (List.get?_mem hgc)
                  cases hcur1.symm.trans hi
                  refine ⟨h, j1, hh, rfl, ?_, Reach.step hri hg1 hnx1⟩
                  exact ((hol i1 sv1 hg1).1 j1 hnx1).trans (g2 i1 hcur1)

/-- The unlink step of `remove` preserves the invariant facts, given that
the unlinked node belongs to the cluster's class. -/
theorem removeAt_inv {store : List Service} {own : Nat → String} {c : Cluster}
    {cur : Nat} {sv : Service} {store' : List Service} {c' : Cluster}
    (hwf : WFstore store) (hol : OwnLinks store own)
    (hg : store.get? cur = some sv) (hoc : own cur = c.version)
    (hcw : CWeak store own c)
    (hok : removeAt store c cur sv = some (store', c')) :
    RStep store store' own c c' := by
  simp only [removeAt] at hok
  split at hok
  · -- sv.prev = none
    rename_i hprev
    split at hok
    · -- sv.next = some h2
      rename_i h2 hnx
      split at hok
      · cases hok
      · rename_i n2 hgn2
        simp only [Option.some.injEq, Prod.mk.injEq] at hok
        obtain ⟨hst, hc'⟩ := hok
        subst hst
        subst hc'
        have hh2lt : h2 < store.length := (hwf cur sv hg).1 h2 hnx
        have hownh2 : own h2 = c.version :=
          ((hol cur sv hg).1 h2 hnx).trans hoc
        refine ⟨by simp [List.length_set], ?_, ?_, ?_, ?_, rfl, rfl, rfl⟩
        · refine wfstore_set (wfstore_set hwf ?_ ?_) ?_ ?_
          · intro j hj
            exact (hwf h2 n2 hgn2).1 j hj
          · intro j hj
            exact Option.noConfusion hj
          · intro j hj
            exact Option.noConfusion hj
          · intro j hj
            exact Option.noConfusion hj
        · refine ownlinks_set (ownlinks_set hol ?_ ?_) ?_ ?_
          · intro j hj
            exact (hol h2 n2 hgn2).1 j hj
          · intro j hj
            exact Option.noConfusion hj
          · intro j hj
            exact Option.noConfusion hj
          · intro j hj
            exact Option.noConfusion hj
        · intro j hj
          rw [get?_set_cases, if_neg (fun hcj => hj (by rw [hcj.1]; exact hoc)),
            get?_set_cases,
            if_neg (fun hcj => hj (by rw [hcj.1]; exact hownh2))]
        · refine ⟨?_, ?_, ?_⟩
          · intro h0 hh0
            cases hh0
            refine ⟨hownh2, ?_⟩
            simp only [List.length_set]
            exact hh2lt
          · intro i0 hi0
            cases hi0
            refine ⟨hownh2, h2, rfl, Reach.refl _ ?_⟩
            simp only [List.length_set]
            exact hh2lt
          · intro
            rfl
    · -- sv.next = none
      rename_i hnx
      simp only [Option.some.injEq, Prod.mk.injEq] at hok
      obtain ⟨hst, hc'⟩ := hok
      subst hst
      subst hc'
      refine ⟨by simp [List.length_set], ?_, ?_, ?_, ?_, rfl, rfl, rfl⟩
      · exact wfstore_set hwf (fun j hj => Option.noConfusion hj)
          (fun j hj => Option.noConfusion hj)
      · exact ownlinks_set hol (fun j hj => Option.noConfusion hj)
          (fun j hj => Option.noConfusion hj)
      · intro j hj
        rw [get?_set_cases, if_neg (fun hcj => hj (by rw [hcj.1]; exact hoc))]
      · refine ⟨?_, ?_, ?_⟩
        · intro h0 hh0
          exact Option.noConfusion hh0
        · intro i0 hi0
          exact Option.noConfusion hi0
        · intro hs0
          exact Bool.noConfusion hs0
  · -- sv.prev = some p
    rename_i p hprev
    split at hok
    · cases hok
    · rename_i pn hgp
      simp only [Option.some.injEq, Prod.mk.injEq] at hok
      obtain ⟨hst, hc'⟩ := hok
      subst hst
      subst hc'
      have hplt : p < store.length := (hwf cur sv hg).2 p hprev
      have hownp : own p = c.version := ((hol cur sv hg).2 p hprev).trans hoc
      refine ⟨by simp [List.length_set], ?_, ?_, ?_, ?_, rfl, rfl, rfl⟩
      · refine wfstore_set (wfstore_set hwf ?_ ?_) ?_ ?_
        · intro j hj
          exact (hwf cur sv hg).1 j hj
        · intro j hj
          exact (hwf p pn hgp).2 j hj
        · intro j hj
          exact Option.noConfusion hj
        · intro j hj
          exact Option.noConfusion hj
      · refine ownlinks_set (ownlinks_set hol ?_ ?_) ?_ ?_
        · intro j hj
          exact ((hol cur sv hg).1 j hj).trans (hoc.trans hownp.symm)
        · intro j hj
          exact (hol p pn hgp).2 j hj
        · intro j hj
          exact Option.noConfusion hj
        · intro j hj
          exact Option.noConfusion hj
      · intro j hj
        rw [get?_set_cases, if_neg (fun hcj => hj (by rw [hcj.1]; exact hoc)),
          get?_set_cases, if_neg (fun hcj => hj (by rw [hcj.1]; exact hownp))]
      · refine ⟨?_, ?_, ?_⟩
        · intro h0 hh0
          obtain ⟨ho, hl⟩ := hcw.1 h0 hh0
          refine ⟨ho, ?_⟩
          simp only [List.length_set]
          exact hl
        · intro i0 hi0
          obtain ⟨ho, hl⟩ := hcw.1 i0 hi0
          refine ⟨ho, i0, hi0, Reach.refl _ ?_⟩
          simp only [List.length_set]
          exact hl
        · intro hs0
          exact hs0

/-- The removal walk preserves the invariant facts, started anywhere in
the cluster's class. -/
theorem removeLoop_inv {store : List Service} {own : Nat → String}
    {c : Cluster} {hash : String} {fuel : Nat} :
    ∀ {cur : Nat} {store' : List Service} {c' : Cluster},
    WFstore store → OwnLinks store own → CWeak store own c →
    own cur = c.version →
    removeLoop store c hash cur fuel = some (.ok (store', c')) →
    RStep store store' own c c' := by
  induction fuel with
  | zero =>
    intro cur store' c' _ _ _ _ hok
    cases hok
  | succ fuel ih =>
    intro cur store' c' hwf hol hcw hoc hok
    simp only [removeLoop] at hok
    split at hok
    · cases hok
    · rename_i sv hg
      split at hok
      · split at hok
        · cases hok
        · rename_i r hra
          simp only [Option.some.injEq, Except.ok.injEq] at hok
          exact removeAt_inv hwf hol hg hoc hcw (hok ▸ hra)
      · split at hok
        · cases hok
        · rename_i nxt hnx
          exact ih hwf hol hcw (((hol cur sv hg).1 nxt hnx).trans hoc) hok

/-- `ServiceCluster.remove` preserves the invariant facts. -/
theorem clusterRemove_inv {store : List Service} {own : Nat → String}
    {c : Cluster} {hash : String} {store' : List Service} {c' : Cluster}
    (hwf : WFstore store) (hol : OwnLinks store own) (hcw : CWeak store own c)
    (hok : clusterRemove store c hash = some (.ok (store', c'))) :
    RStep store store' own c c' := by
  simp only [clusterRemove] at hok
  split at hok
  · cases hok
  · rename_i h hh
    exact removeLoop_inv hwf hol hcw (hcw.1 h hh).1 hok

/-- Rebuilding the invariant when the cluster at `k` emptied and is
dropped, after class-local arena changes. -/
theorem sinv_update_erase {store store' : List Service} {own : Nat → String}
    {clusters : List Cluster} {k : Nat} {c : Cluster}
    (hgk : clusters.get? k = some c)
    (hnd : (clusters.map Cluster.version).Nodup)
    (hwf' : WFstore store') (hol : OwnLinks store own)
    (hol' : OwnLinks store' own)
    (hlen : store'.length = store.length)
    (hoff : ∀ j, own j ≠ c.version → store'.get? j = store.get? j)
    (hokc : ClustersOK store own clusters) :
    SInv store' (clusters.eraseIdx k) := by
  refine ⟨hwf', ?_, own, hol', ?_⟩
  · exact List.Nodup.sublist
      ((List.eraseIdx_sublist clusters k).map Cluster.version) hnd
  · rw [List.eraseIdx_eq_take_drop_succ]
    intro c2 hc2
    obtain ⟨hc2mem, hvne⟩ := middle_facts hgk hnd c2 hc2
    obtain ⟨g1, g2, h2, i2, hh2, hi2, hri2⟩ := hokc c2 hc2mem
    refine ⟨g1, g2, h2, i2, hh2, hi2, ?_⟩
    exact reach_same_class hlen.symm
      (fun j hj => hoff j (fun hcv => hvne (hj.symm.trans hcv)))
      hol (g1 h2 hh2) hri2

/-- Rebuilding the invariant when the cluster at `k` is replaced by its
still-nonempty update, after class-local arena changes. -/
theorem sinv_update_set {store store' : List Service} {own : Nat → String}
    {clusters : List Cluster} {k : Nat} {c c' : Cluster}
    (hgk : clusters.get? k = some c)
    (hnd : (clusters.map Cluster.version).Nodup)
    (hwf' : WFstore store') (hol : OwnLinks store own)
    (hol' : OwnLinks store' own)
    (hlen : store'.length = store.length)
    (hoff : ∀ j, own j ≠ c.version → store'.get? j = store.get? j)
    (hokc : ClustersOK store own clusters)
    (hcw' : CWeak store' own c') (hv : c'.version = c.version)
    (hhead : c'.head.isSome) :
    SInv store' (clusters.set k c') := by
  refine ⟨hwf', ?_, own, hol', ?_⟩
  · rw [List.map_set, hv]
    have hvm : (clusters.map Cluster.version).get? k = some c.version := by
      rw [List.get?_map, hgk]
      rfl
    rw [set_get_self hvm]
    exact hnd
  · rw [set_decomp _ hgk]
    intro c2 hc2
    rcases List.mem_append.mp hc2 with hm | hm
    · obtain ⟨hc2mem, hvne⟩ :=
        middle_facts hgk hnd c2 (List.mem_append_left _ hm)
      obtain ⟨g1, g2, h2, i2, hh2, hi2, hri2⟩ := hokc c2 hc2mem
      refine ⟨g1, g2, h2, i2, hh2, hi2, ?_⟩
      exact reach_same_class hlen.symm
        (fun j hj => hoff j (fun hcv => hvne (hj.symm.trans hcv)))
        hol (g1 h2 hh2) hri2
    · rcases List.mem_cons.mp hm with he | hm2
      · subst he
        obtain ⟨h', hh'⟩ := Option.isSome_iff_exists.mp hhead
        have hcur' := hcw'.2.2 (by rw [hh']; rfl)
        obtain ⟨i', hi'⟩ := Option.isSome_iff_exists.mp hcur'
        obtain ⟨howni, h'', hh'', hri'⟩ := hcw'.2.1 i' hi'
        exact ⟨fun h0 hh0 => (hcw'.1 h0 hh0).1,
          fun i0 hi0 => (hcw'.2.1 i0 hi0).1, h'', i', hh'', hi', hri'⟩
      · obtain ⟨hc2mem, hvne⟩ :=
          middle_facts hgk hnd c2 (List.mem_append_right _ hm2)
        obtain ⟨g1, g2, h2, i2, hh2, hi2, hri2⟩ := hokc c2 hc2mem
        refine ⟨g1, g2, h2, i2, hh2, hi2, ?_⟩
        exact reach_same_class hlen.symm
          (fun j hj => hoff j (fun hcv => hvne (hj.symm.trans hcv)))
          hol (g1 h2 hh2) hri2

/-- `removeService` preserves the invariant. -/
theorem remove_sinv {ipv4 : Bool} {reg reg2 : Registry} {n v ip : String}
    {p : Nat} {e : Option Err}
    (hs : SInv reg.store reg.clusters)
    (hrm : removeService ipv4 reg n v ip p = some (reg2, e)) :
    SInv reg2.store reg2.clusters := by
  simp only [removeService] at hrm
  split at hrm
  · simp only [Option.some.injEq, Prod.mk.injEq] at hrm
    rw [← hrm.1]
    exact hs
  · rename_i idx hfind
    split at hrm
    · cases hrm
    · rename_i c hgc
      split at hrm
      · cases hrm
      · simp only [Option.some.injEq, Prod.mk.injEq] at hrm
        rw [← hrm.1]
        exact hs
      · rename_i store' c' hcr
        obtain ⟨hwf, hnd, own, hol, hokc⟩ := hs
        have hcw : CWeak reg.store own c :=
          cweak_of_clustersOK hokc (List.get?_mem hgc)
        obtain ⟨hlen, hwf', hol', hoff, hcw', hv, -, -⟩ :=
          clusterRemove_inv hwf hol hcw hcr
        split at hrm
        · simp only [Option.some.injEq, Prod.mk.injEq] at hrm
          rw [← hrm.1]
          exact sinv_update_erase hgc hnd hwf' hol hol' hlen hoff hokc
        · rename_i hhead
          simp only [Option.some.injEq, Prod.mk.injEq] at hrm
          rw [← hrm.1]
          refine sinv_update_set hgc hnd hwf' hol hol' hlen hoff hokc hcw' hv ?_
          cases hh : c'.head with
          | none => rw [hh] at hhead; exact absurd rfl hhead
          | some x => rfl

/-- The prune walk preserves the invariant facts: every removal is a full
from-the-head `remove` of the current cluster state. -/
theorem pruneLoop_inv {own : Nat → String} {cutoff : Nat} {fuel : Nat} :
    ∀ {store : List Service} {c : Cluster} {cur : Option Nat} {counter : Nat}
      {store' : List Service} {c' : Cluster} {cnt : Nat},
    WFstore store → OwnLinks store own → CWeak store own c →
    pruneLoop store c cutoff cur counter fuel = some (.ok (store', c', cnt)) →
    RStep store store' own c c' := by
  induction fuel with
  | zero =>
    intro store c cur counter store' c' cnt _ _ _ hok
    cases hok
  | succ fuel ih =>
    intro store c cur counter store' c' cnt hwf hol hcw hok
    simp only [pruneLoop] at hok
    split at hok
    · simp only [Option.some.injEq, Except.ok.injEq, Prod.mk.injEq] at hok
      obtain ⟨h1, h2, -⟩ := hok
      subst h1
      subst h2
      exact ⟨rfl, hwf, hol, fun j _ => rfl, hcw, rfl, rfl, rfl⟩
    · rename_i i
      split at hok
      · cases hok
      · rename_i sv hgi
        split at hok
        · split at hok
          · cases hok
          · cases hok
          · rename_i store1 c1 hcr
            obtain ⟨hl1, hwf1, hol1, hoff1, hcw1, hv1, hn1, hh1⟩ :=
              clusterRemove_inv hwf hol hcw hcr
            obtain ⟨hl2, hwf2, hol2, hoff2, hcw2, hv2, hn2, hh2⟩ :=
              ih hwf1 hol1 hcw1 hok
            refine ⟨hl2.trans hl1, hwf2, hol2, ?_, hcw2, hv2.trans hv1,
              hn2.trans hn1, hh2.trans hh1⟩
            intro j hj
            have hj1 : own j ≠ c1.version := by rw [hv1]; exact hj
            exact (hoff2 j hj1).trans (hoff1 j hj)
        · exact ih hwf hol hcw hok

/-- `ServiceCluster.prune` preserves the invariant facts. -/
theorem clusterPrune_inv {store : List Service} {own : Nat → String}
    {c : Cluster} {cutoff : Nat} {store' : List Service} {c' : Cluster}
    {cnt : Nat}
    (hwf : WFstore store) (hol : OwnLinks store own) (hcw : CWeak store own c)
    (hok : clusterPrune store c cutoff = some (.ok (store', c', cnt))) :
    RStep store store' own c c' := by
  simp only [clusterPrune] at hok
  split at hok
  · cases hok
  · exact pruneLoop_inv hwf hol hcw hok

/-- The health-check callback's cluster sweep preserves the invariant when
it completes without a throw. -/
theorem pruneCycleLoop_inv {cutoff : Nat} {rem : Nat} :
    ∀ {store : List Service} {clusters : List Cluster} {k : Nat}
      {store' : List Service} {clusters' : List Cluster},
    SInv store clusters →
    pruneCycleLoop store clusters cutoff k rem =
      some (store', clusters', none) →
    SInv store' clusters' := by
  induction rem with
  | zero =>
    intro store clusters k store' clusters' hs hok
    simp only [pruneCycleLoop, Option.some.injEq, Prod.mk.injEq] at hok
    obtain ⟨h1, h2, -⟩ := hok
    rw [← h1, ← h2]
    exact hs
  | succ rem ih =>
    intro store clusters k store' clusters' hs hok
    simp only [pruneCycleLoop] at hok
    split at hok
    · exact ih hs hok
    · rename_i c hgk
      split at hok
      · cases hok
      · simp only [Option.some.injEq, Prod.mk.injEq] at hok
        exact Option.noConfusion hok.2.2
      · rename_i store1 c1 cnt hcp
        obtain ⟨hwf, hnd, own, hol, hokc⟩ := hs
        have hcw : CWeak store own c :=
          cweak_of_clustersOK hokc (List.get?_mem hgk)
        obtain ⟨hlen, hwf1, hol1, hoff, hcw1, hv1, -, -⟩ :=
          clusterPrune_inv hwf hol hcw hcp
        split at hok
        · exact ih (sinv_update_erase hgk hnd hwf1 hol hol1 hlen hoff hokc) hok
        · rename_i hhead
          refine ih
            (sinv_update_set hgk hnd hwf1 hol hol1 hlen hoff hokc hcw1 hv1 ?_)
            hok
          cases hh : c1.head with
          | none => rw [hh] at hhead; exact absurd rfl hhead
          | some x => rfl

/-- A completing prune cycle preserves the invariant. -/
theorem prune_sinv {reg reg2 : Registry} {now : Nat}
    (hs : SInv reg.store reg.clusters)
    (hp : pruneCycle reg now = some (reg2, none)) :
    SInv reg2.store reg2.clusters := by
  simp only [pruneCycle] at hp
  split at hp
  · simp only [Option.some.injEq, Prod.mk.injEq] at hp
    rw [← hp.1]
    exact hs
  · split at hp
    · cases hp
    · simp only [Option.some.injEq, Prod.mk.injEq] at hp
      exact Option.noConfusion hp.2
    · rename_i store' clusters' hloop
      simp only [Option.some.injEq, Prod.mk.injEq] at hp
      rw [← hp.1]
      exact pruneCycleLoop_inv hs hloop

/-- `registerService` preserves the invariant. -/
theorem register_sinv {ipv4 : Bool} {reg reg2 : Registry} {n v ip : String}
    {p now : Nat} {e : Option Err}
    (hs : SInv reg.store reg.clusters)
    (hr : registerService ipv4 reg n v ip p now = some (reg2, e)) :
    SInv reg2.store reg2.clusters := by
  simp only [registerService] at hr
  split at hr
  · rename_i idx hfind
    split at hr
    · cases hr
    · rename_i c hgc
      split at hr
      · cases hr
      · simp only [Option.some.injEq, Prod.mk.injEq] at hr
        rw [← hr.1]
        exact hs
      · rename_i store2 c2 hadd
        obtain ⟨hwf, hnd, own, hol, hokc⟩ := hs
        have hcmem : c ∈ reg.clusters := List.get?_mem hgc
        obtain ⟨g1, g2, h, i, hh, hi, hri⟩ := hokc c hcmem
        simp only [clusterAdd, hh] at hadd
        obtain ⟨hc2, t, svt, hgt0, hnt, hrt0, hs2⟩ := addLoop_ok_shape2 hadd
        subst hc2
        have hhlt : h < reg.store.length := reach_start_lt hri
        obtain ⟨htlt, hrt⟩ := reach_append_bound hwf hhlt hrt0
        have hgt : reg.store.get? t = some svt := by
          rw [List.get?_append htlt] at hgt0
          exact hgt0
        have hownh : own h = c2.version := g1 h hh
        have hownt : own t = c2.version := (reach_own hol hrt).trans hownh
        have htid : t ≠ reg.store.length := Nat.ne_of_lt htlt
        have main : SInv store2 (reg.clusters.set idx c2) := by
          rw [set_get_self hgc]
          subst hs2
          refine ⟨?_, hnd,
            (fun j => if j = reg.store.length then c2.version else own j),
            ?_, ?_⟩
          · refine wfstore_set (wfstore_set (wfstore_append hwf rfl rfl)
              ?_ ?_) ?_ ?_
            · intro j hj
              exact Option.noConfusion hj
            · intro j hj
              cases hj
              simp only [List.length_append, List.length_cons, List.length_nil]
              omega
            · intro j hj
              cases hj
              simp only [List.length_set, List.length_append,
                List.length_cons, List.length_nil]
              omega
            · intro j hj
              have := (hwf t svt hgt).2 j hj
              simp only [List.length_set, List.length_append,
                List.length_cons, List.length_nil]
              omega
          · refine ownlinks_set (ownlinks_set
              (ownlinks_append c2.version hwf hol rfl rfl) ?_ ?_) ?_ ?_
            · intro j hj
              exact Option.noConfusion hj
            · intro j hj
              cases hj
              show (if t = reg.store.length then c2.version else own t) =
                (if reg.store.length = reg.store.length then c2.version
                  else own reg.store.length)
              rw [if_neg htid, if_pos rfl]
              exact hownt
            · intro j hj
              cases hj
              show (if reg.store.length = reg.store.length then c2.version
                  else own reg.store.length) =
                (if t = reg.store.length then c2.version else own t)
              rw [if_pos rfl, if_neg htid]
              exact hownt.symm
            · intro j hj
              have hjlt := (hwf t svt hgt).2 j hj
              have hjown := (hol t svt hgt).2 j hj
              show (if j = reg.store.length then c2.version else own j) =
                (if t = reg.store.length then c2.version else own t)
              rw [if_neg (Nat.ne_of_lt hjlt), if_neg htid]
              exact hjown
          · intro c3 hc3
            obtain ⟨k1, k2, h3, i3, hh3, hi3, hri3⟩ := hokc c3 hc3
            have hh3lt : h3 < reg.store.length := reach_start_lt hri3
            have hi3lt : i3 < reg.store.length := reach_lt hwf hri3
            refine ⟨?_, ?_, h3, i3, hh3, hi3, ?_⟩
            · intro h0 hh0
              cases hh0.symm.trans hh3
              show (if h3 = reg.store.length then c2.version else own h3) =
                c3.version
              rw [if_neg (Nat.ne_of_lt hh3lt)]
              exact k1 h3 hh0
            · intro i0 hi0
              cases hi0.symm.trans hi3
              show (if i3 = reg.store.length then c2.version else own i3) =
                c3.version
              rw [if_neg (Nat.ne_of_lt hi3lt)]
              exact k2 i3 hi0
            · have hr0 : Reach
                  (reg.store ++ [Service.init n v (formatIPV ipv4 ip) p now])
                  h3 i3 := reach_append hri3
              have hgid : (reg.store ++
                    [Service.init n v (formatIPV ipv4 ip) p now]).get?
                    reg.store.length =
                  some (Service.init n v (formatIPV ipv4 ip) p now) :=
                List.get?_concat_length _ _
              have hgt1 : ((reg.store ++
                    [Service.init n v (formatIPV ipv4 ip) p now]).set
                    reg.store.length
                    ({ hash := serviceHash n v (formatIPV ipv4 ip) p,
                       timestamp := now, prev := some t,
                       next := none } : Service)).get? t = some svt := by
                rw [List.get?_set_ne _ _ (fun he => htid he.symm)]
                exact hgt0
              exact reach_set_terminal hgt1 hnt
                (reach_set_terminal hgid rfl hr0)
        simp only [Option.some.injEq, Prod.mk.injEq] at hr
        rw [← hr.1]
        exact main
  · rename_i hfind
    split at hr
    · rename_i hnone
      simp [clusterAdd, Cluster.init] at hnone
    · rename_i e2 herr
      simp [clusterAdd, Cluster.init] at herr
    · rename_i store2 c2 hadd
      simp only [clusterAdd, Cluster.init, Option.some.injEq, Except.ok.injEq,
        Prod.mk.injEq] at hadd
      obtain ⟨hst, hcl⟩ := hadd
      subst hst
      subst hcl
      simp only [Option.some.injEq, Prod.mk.injEq] at hr
      rw [← hr.1]
      obtain ⟨hwf, hnd, own, hol, hokc⟩ := hs
      refine ⟨wfstore_append hwf rfl rfl, ?_,
        (fun j => if j = reg.store.length then v else own j),
        ownlinks_append v hwf hol rfl rfl, ?_⟩
      · apply ((List.perm_insertionSort _ _).map Cluster.version).nodup_iff.mpr
        rw [List.map_append, List.nodup_append]
        refine ⟨hnd, by simp, ?_⟩
        intro a ha hb
        have hb2 : a = v := by simpa using hb
        subst hb2
        obtain ⟨c0, hc0, hcv⟩ := List.mem_map.mp ha
        exact findVersionIdx_none_forall hfind c0 hc0 hcv
      · intro c2 hc2
        have hc2b := (List.perm_insertionSort _ _).mem_iff.mp hc2
        rcases List.mem_append.mp hc2b with hm | hm
        · obtain ⟨k1, k2, h2, i2, hh2, hi2, hri2⟩ := hokc c2 hm
          have hh2lt : h2 < reg.store.length := reach_start_lt hri2
          have hi2lt : i2 < reg.store.length := reach_lt hwf hri2
          refine ⟨?_, ?_, h2, i2, hh2, hi2, reach_append hri2⟩
          · intro h0 hh0
            cases hh0.symm.trans hh2
            show (if h2 = reg.store.length then v else own h2) = c2.version
            rw [if_neg (Nat.ne_of_lt hh2lt)]
            exact k1 h2 hh0
          · intro i0 hi0
            cases hi0.symm.trans hi2
            show (if i2 = reg.store.length then v else own i2) = c2.version
            rw [if_neg (Nat.ne_of_lt hi2lt)]
            exact k2 i2 hi0
        · have he : c2 = ({ hash := clusterHash n v, name := n, version := v, head := some reg.store.length, cursor := some reg.store.length } : Cluster) := by
            simpa using hm
          subst he
          refine ⟨?_, ?_, reg.store.length, reg.store.length, rfl, rfl,
            Reach.refl _ (by simp)⟩
          · intro h0 hh0
            cases hh0
            show (if reg.store.length = reg.store.length then v
                else own reg.store.length) = v
            rw [if_pos rfl]
          · intro i0 hi0
            cases hi0
            show (if reg.store.length = reg.store.length then v
                else own reg.store.length) = v
            rw [if_pos rfl]

/-- The fresh registry satisfies the invariant. -/
theorem sinv_init (t0 : Nat) :
    SInv (Registry.init t0).store (Registry.init t0).clusters := by
  refine ⟨?_, ?_, (fun _ => ""), ?_, ?_⟩
  · intro i sv hg
    cases hg
  · simp [Registry.init]
  · intro i sv hg
    cases hg
  · intro c hc
    exact absurd hc (List.not_mem_nil c)

/-- Every registry the public operations can produce satisfies the
invariant. -/
theorem reachable_sinv {ipv4 : Bool} {reg : Registry}
    (hr : Reachable ipv4 reg) : SInv reg.store reg.clusters := by
  induction hr with
  | init t0 => exact sinv_init t0
  | register h1 h2 ih => exact register_sinv ih h2
  | keep h1 h2 ih => exact keep_sinv ih h2
  | remove h1 h2 ih => exact remove_sinv ih h2
  | resolve h1 h2 ih => exact get_sinv ih h2
  | prune h1 h2 ih => exact prune_sinv ih h2

/-- C9 (confirmed): after every sequence of register, keepAlive,
deregister, prune and select operations from a fresh registry, each
retained cluster's head and cursor references are set and the cursor
references an entry of that cluster's entry sequence — an arena node
reachable from the cluster's head along `next` references.  The cursor is
unset only while the cluster is empty, and the public operations never
retain an empty cluster in the registry. -/
theorem C9_cursor_invariant {ipv4 : Bool} {reg : Registry}
    (hr : Reachable ipv4 reg) :
    ∀ c ∈ reg.clusters, ∃ h i, c.head = some h ∧ c.cursor = some i ∧
      Reach reg.store h i := by
  obtain ⟨-, -, own, -, hokc⟩ := reachable_sinv hr
  intro c hc
  obtain ⟨-, -, h, i, hh, hi, hri⟩ := hokc c hc
  exact ⟨h, i, hh, hi, hri⟩

/-- C9 witness: the registry after one concrete registration; every
cluster of that reachable state has a set head and a cursor reachable
from it. -/
theorem C9_witness :
    ∃ reg : Registry, ∀ c ∈ reg.clusters, ∃ h i, c.head = some h ∧
      c.cursor = some i ∧ Reach reg.store h i := by
  obtain ⟨r1, h1⟩ : ∃ r1, registerService true (Registry.init 0) "a" "1.0.0"
      "10.0.0.1" 80 5 = some (r1, none) := ⟨_, rfl⟩
  exact ⟨r1, C9_cursor_invariant (Reachable.register (Reachable.init 0) h1)⟩

end ServiceRegistry
